import Mathlib

/-!
Verification of the pipeline execution engine of the r0tbb bug-bounty tool.

The Lean definitions below are a shallow embedding of the Python sources:
  - templating.py  : variable resolution (TemplateRenderer.render, materialize_env,
                     validate_template_vars)
  - runner.py      : Task, TaskRunner (load_tasks, validate_pipeline, _execute_pipeline,
                     _safe_db_call, _cancel_running_tasks, _kill_process_tree,
                     _execute_shell_task, _update_progress, run)
  - simple_runner.py : SimpleTaskRunner.run and its timeout handling
Each definition carries a comment pointing at the source lines it embeds.
Strings are modelled as Lean String / List Char; Python dicts keyed by strings are
modelled as association lists in insertion order; Python sets are modelled as
duplicate-free lists.
-/

namespace BugBounty

/-- The literal left-brace character, written via its code point. -/
def lbrace : Char := Char.ofNat 123

/-- The literal right-brace character, written via its code point. -/
def rbrace : Char := Char.ofNat 125

/-- Fuel-indexed scanner behind pyReplace.  Each step either copies one character or,
on a match, emits the replacement and drops the matched occurrence (at least one
character), so fuel equal to the text length always suffices; recursion is structural
on the fuel so that the function evaluates inside the kernel. -/
def pyReplaceFuel (old new : List Char) : Nat → List Char → List Char
  | 0, l => l
  | _ + 1, [] => []
  | fuel + 1, c :: rest =>
    if old ≠ [] ∧ old.isPrefixOf (c :: rest) then
      new ++ pyReplaceFuel old new fuel ((c :: rest).drop old.length)
    else
      c :: pyReplaceFuel old new fuel rest

/-- Model of Python str.replace(old, new): replace every occurrence of old by new,
scanning left to right, non-overlapping.  Used by TemplateRenderer.render
(templating.py line 40: result.replace(pattern, str(value))). -/
def pyReplace (old new text : List Char) : List Char :=
  pyReplaceFuel old new text.length text

/-- The pattern string for one variable, templating.py line 39: f-string producing
left brace, key, right brace. -/
def bracePattern (key : String) : List Char := lbrace :: key.data ++ [rbrace]

/-- Model of TemplateRenderer.render (templating.py lines 31-50).  The first pass
replaces each occurrence of the braced key by the value, iterating over the variable
mapping in insertion order.  The second pass hands the result to Jinja2, which returns
text free of Jinja constructs unchanged and whose failure is swallowed (lines 43-48),
so on the plain-brace commands of this pipeline it is the identity and is not modelled
further. -/
def render (text : String) (vars : List (String × String)) : String :=
  String.mk (vars.foldl (fun acc kv => pyReplace (bracePattern kv.1) kv.2.data acc)
    text.data)

/-- Model of TemplateRenderer.render_dict applied to a flat string-to-string mapping
(templating.py lines 52-64): every value is rendered against the full variable mapping,
keys are kept. -/
def render_dict (data vars : List (String × String)) : List (String × String) :=
  data.map (fun kv => (kv.1, render kv.2 vars))

/-- One pass of the resolution loop of materialize_env (templating.py line 118):
variables = resolver.render_dict(variables, variables). -/
def resolveStep (v : List (String × String)) : List (String × String) :=
  render_dict v v

/-- Model of the resolution loop of materialize_env (templating.py lines 114-122):
for each of at most n passes, substitute the mapping into itself and stop as soon as a
pass produces no change.  Returns the resulting mapping together with the number of
passes that were executed. -/
def materializeLoop : Nat → List (String × String) → List (String × String) × Nat
  | 0, v => (v, 0)
  | n + 1, v =>
    if resolveStep v = v then (resolveStep v, 1)
    else ((materializeLoop n (resolveStep v)).1, (materializeLoop n (resolveStep v)).2 + 1)

/-- Model of materialize_env (templating.py lines 81-124) restricted to its resolution
loop: the base/environment/custom mappings have already been merged into the argument
(lines 95-110 only build that merged dict), and max_iterations is fixed to 5
(line 114). -/
def materialize_env (v : List (String × String)) : List (String × String) :=
  (materializeLoop 5 v).1

/-- Modelled from templating.py lines 112-124: the resolution loop of materialize_env
contains no logging, console or warning call of any kind, so the list of warning
messages it emits is empty for every input. -/
def materialize_env_warnings (_v : List (String × String)) : List String := []

theorem materializeLoop_passes_le (n : Nat) (v : List (String × String)) :
    (materializeLoop n v).2 ≤ n := by
  induction n generalizing v with
  | zero => simp [materializeLoop]
  | succ n ih =>
    simp only [materializeLoop]
    split
    · omega
    · have := ih (resolveStep v)
      omega

theorem materializeLoop_result_eq_iterate (n : Nat) (v : List (String × String)) :
    (materializeLoop n v).1 = resolveStep^[(materializeLoop n v).2] v := by
  induction n generalizing v with
  | zero => simp [materializeLoop]
  | succ n ih =>
    simp only [materializeLoop]
    split
    · simp
    · have := ih (resolveStep v)
      simpa [Function.iterate_succ_apply] using this

theorem materializeLoop_fixpoint_of_early (n : Nat) (v : List (String × String))
    (h : (materializeLoop n v).2 < n) :
    resolveStep (materializeLoop n v).1 = (materializeLoop n v).1 := by
  induction n generalizing v with
  | zero => omega
  | succ n ih =>
    by_cases heq : resolveStep v = v
    · simp [materializeLoop, heq]
    · simp only [materializeLoop, if_neg heq] at h ⊢
      exact ih (resolveStep v) (by omega)

/-- C6 (amended): for every variable mapping, the materialize_env resolution loop
executes at most 5 passes of substituting the mapping into itself, the returned mapping
is exactly the result of the last executed pass, and either that result is a fixed
point of the substitution (the loop stopped early because a pass produced no change)
or all 5 passes were used; in every case the loop emits no warning (the source lacks
the warning the claim describes). -/
theorem C6_materialize_env_passes (v : List (String × String)) :
    (materializeLoop 5 v).2 ≤ 5 ∧
    materialize_env v = resolveStep^[(materializeLoop 5 v).2] v ∧
    (resolveStep (materialize_env v) = materialize_env v ∨ (materializeLoop 5 v).2 = 5) ∧
    materialize_env_warnings v = [] := by
  refine ⟨materializeLoop_passes_le 5 v, materializeLoop_result_eq_iterate 5 v, ?_, rfl⟩
  by_cases h : (materializeLoop 5 v).2 = 5
  · exact Or.inr h
  · exact Or.inl (materializeLoop_fixpoint_of_early 5 v
      (lt_of_le_of_ne (materializeLoop_passes_le 5 v) h))

/-- The non-convergent mapping used against C6: a single variable A whose value embeds
the placeholder of A itself, so every substitution pass grows the value. -/
def c6Input : List (String × String) := [("A", "\x7bA\x7d!")]

/-- C6 (counterexample): on c6Input the resolution loop runs all 5 passes without
reaching a fixed point, yet materialize_env emits no warning at all, refuting the
claim that a warning is emitted when convergence is not reached within 5 passes. -/
theorem C6_no_warning_on_divergence :
    (materializeLoop 5 c6Input).2 = 5 ∧
    resolveStep (materialize_env c6Input) ≠ materialize_env c6Input ∧
    materialize_env_warnings c6Input = [] :=
  ⟨by decide, by decide, rfl⟩

/-- Characters that may start a template variable name, the regex class of
validate_template_vars (templating.py line 157): ASCII letters and underscore. -/
def isVarStart (c : Char) : Bool := c.isAlpha || c == '_'

/-- Characters that may continue a template variable name (templating.py line 157):
ASCII letters, digits and underscore. -/
def isVarChar (c : Char) : Bool := c.isAlphanum || c == '_'

/-- Match one template variable right after an opening brace: a name in the class
[A-Za-z_][A-Za-z0-9_]* followed by a closing brace.  Returns the name and the text
after the closing brace; the star is greedy and the closing brace is not in the name
class, so no backtracking arises. -/
def takeVar : List Char → Option (String × List Char)
  | [] => none
  | c :: rest =>
    if isVarStart c then
      match rest.dropWhile isVarChar with
      | d :: rest2 =>
        if d = rbrace then some (String.mk (c :: rest.takeWhile isVarChar), rest2) else none
      | [] => none
    else none

/-- Fuel-indexed scanner behind findTemplateVars; fuel equal to the text length always
suffices because every step consumes at least one character. -/
def findVarsFuel : Nat → List Char → List String
  | 0, _ => []
  | _ + 1, [] => []
  | fuel + 1, c :: rest =>
    if c = lbrace then
      match takeVar rest with
      | some (name, rest2) => name :: findVarsFuel fuel rest2
      | none => findVarsFuel fuel rest
    else findVarsFuel fuel rest

/-- Model of the re.findall scan of validate_template_vars (templating.py lines
156-158): every non-overlapping placeholder occurrence, left to right. -/
def findTemplateVars (text : List Char) : List String :=
  findVarsFuel text.length text

/-- Model of validate_template_vars (templating.py lines 142-162): the placeholder
names of the text that are not keys of the available mapping.  Python materialises the
two sets and returns their difference as a list in unspecified set order; the model
uses first-occurrence order, and every claim only consults whether the result is
empty. -/
def validate_template_vars (text : String) (available : List (String × String)) :
    List String :=
  (findTemplateVars text.data).dedup.filter
    (fun v => !((available.map Prod.fst).contains v))

/-- Lifecycle states of one task, constants.py class TaskStatus. -/
inductive TaskStatus where
  | PENDING | RUNNING | DONE | ERROR | SKIPPED | CANCELLED
deriving DecidableEq, Repr

/-- Lifecycle states of one run, constants.py class RunStatus. -/
inductive RunStatus where
  | PENDING | RUNNING | DONE | ERROR | CANCELLED
deriving DecidableEq, Repr

/-- One task definition, the fields of runner.py Task.__init__ (lines 30-44) that the
validator and scheduler read; the mutable execution fields live in the scheduler state
below. -/
structure Task where
  name : String
  cmd : String
  kind : String
  needs : List String
deriving DecidableEq, Repr

/-- Task.is_internal (runner.py lines 50-52). -/
def Task.is_internal (t : Task) : Bool := t.kind.startsWith "internal:"

/-- Task.is_ready (runner.py lines 46-48): every dependency is in the completed set. -/
def Task.is_ready (t : Task) (completed : List String) : Bool :=
  t.needs.all (fun dep => completed.contains dep)

/-- Dictionary lookup self.tasks[name]: the task carrying the given name (dict keys are
unique; on a list with duplicated names this picks the first, matching the dict built
by load_tasks where a later duplicate overwrites in place). -/
def lookupTask (tasks : List Task) (name : String) : Option Task :=
  tasks.find? (fun t => t.name == name)

/-- The dependency list consulted by check_circular (runner.py lines 229-231): the
needs of the named task, or nothing when the name is not a task key. -/
def needsOf (tasks : List Task) (name : String) : List String :=
  (lookupTask tasks name).elim [] Task.needs

/-- Model of the nested function check_circular of validate_pipeline (runner.py lines
222-234), threading the enclosing visited set.  The Python recursion is unbounded on
the call stack; here it is fuel-indexed with structural recursion so that it evaluates
inside the kernel.  Fuel equal to the number of tasks plus one can never be exhausted
because every nested call first adds a fresh name to visited (the adequacy lemmas
below).  Returns the detected cycle path, if any, with the updated visited set; the
dependency for-loop (lines 230-233) returns the first cycle found and stops extending
visited afterwards, which the fold accumulator mirrors. -/
def check_circular (tasks : List Task) :
    Nat → String → List String → List String → Option (List String) × List String
  | 0, _, _, visited => (none, visited)
  | fuel + 1, name, path, visited =>
    if path.contains name then (some (path ++ [name]), visited)
    else if visited.contains name then (none, visited)
    else
      (needsOf tasks name).foldl
        (fun acc dep =>
          match acc with
          | (some cyc, vis2) => (some cyc, vis2)
          | (none, vis2) => check_circular tasks fuel dep (path ++ [name]) vis2)
        (none, name :: visited)

/-- One validation error of validate_pipeline (runner.py lines 210-244), carrying the
data of the corresponding message string: a dependency on an unknown task (line 217),
a detected circular-dependency path (lines 224 and 238), or undefined command
variables (line 244). -/
inductive ValidationError where
  | unknownDep (task dep : String)
  | circular (path : List String)
  | missingVars (task : String) (missing : List String)
deriving DecidableEq, Repr

/-- Model of TaskRunner.validate_pipeline (runner.py lines 203-246): for every task in
order, collect its unknown-dependency errors, then its circular-dependency error if
check_circular finds one (visited is reset per task, line 220), then its
undefined-variable error for non-internal commands. -/
def validate_pipeline (tasks : List Task) (vars : List (String × String)) :
    List ValidationError :=
  tasks.foldl
    (fun errors t =>
      errors ++
        (t.needs.filter (fun d => !(tasks.any (fun u => u.name == d)))).map
          (fun d => ValidationError.unknownDep t.name d) ++
        (match (check_circular tasks (tasks.length + 1) t.name [] []).1 with
          | some p => [ValidationError.circular p]
          | none => []) ++
        (if t.is_internal then []
         else
           match validate_template_vars t.cmd vars with
           | [] => []
           | m => [ValidationError.missingVars t.name m]))
    []

/-- One dependency edge as traversed by check_circular: b is among the needs of the
task named a. -/
def Step (tasks : List Task) (a b : String) : Prop := b ∈ needsOf tasks a

/-- A cyclic needs relation: some name reaches itself through at least one edge. -/
def HasCycle (tasks : List Task) : Prop := ∃ a, Relation.TransGen (Step tasks) a a


/-- The dependency for-loop of check_circular (runner.py lines 230-233) as a named
fold, for stating lemmas about check_circular one constructor at a time. -/
def depFold (tasks : List Task) (fuel : Nat) (path1 : List String)
    (deps : List String) (acc : Option (List String) × List String) :
    Option (List String) × List String :=
  deps.foldl
    (fun acc dep =>
      match acc with
      | (some cyc, vis2) => (some cyc, vis2)
      | (none, vis2) => check_circular tasks fuel dep path1 vis2)
    acc

theorem check_circular_succ (tasks : List Task) (fuel : Nat) (name : String)
    (path visited : List String) :
    check_circular tasks (fuel + 1) name path visited =
      if path.contains name then (some (path ++ [name]), visited)
      else if visited.contains name then (none, visited)
      else depFold tasks fuel (path ++ [name]) (needsOf tasks name)
        (none, name :: visited) := rfl

theorem depFold_cons (tasks : List Task) (fuel : Nat) (path1 : List String)
    (d : String) (ds : List String) (vis : List String) :
    depFold tasks fuel path1 (d :: ds) (none, vis) =
      depFold tasks fuel path1 ds (check_circular tasks fuel d path1 vis) := rfl

theorem depFold_some (tasks : List Task) (fuel : Nat) (path1 : List String)
    (ds : List String) (c : List String) (vis : List String) :
    depFold tasks fuel path1 ds (some c, vis) = (some c, vis) := by
  induction ds with
  | nil => rfl
  | cons d ds ih => exact ih

/-- The reversed current path of check_circular is an edge chain: the head steps to
the given name and, recursively, each element steps to its predecessor in the list. -/
def ChainUp (tasks : List Task) : List String → String → Prop
  | [], _ => True
  | p :: ps, name => Step tasks p name ∧ ChainUp tasks ps p

theorem chainUp_append (tasks : List Task) (l1 l2 : List String) (a name : String)
    (h : ChainUp tasks (l1 ++ a :: l2) name) :
    Relation.TransGen (Step tasks) a name := by
  induction l1 generalizing name with
  | nil => exact Relation.TransGen.single h.1
  | cons p rest ih => exact Relation.TransGen.tail (ih p h.2) h.1

/-- Soundness of check_circular: whenever it reports a cycle path, with the reversed
current path forming an edge chain into the current name, some element of the
reported path really lies on a cycle of the needs relation. -/
theorem check_circular_sound (tasks : List Task) : ∀ (fuel : Nat)
    (name : String) (path visited : List String) (cyc vis2 : List String),
    check_circular tasks fuel name path visited = (some cyc, vis2) →
    ChainUp tasks path.reverse name →
    ∃ a ∈ cyc, Relation.TransGen (Step tasks) a a := by
  intro fuel
  induction fuel with
  | zero =>
    intro name path visited cyc vis2 h _
    simp [check_circular] at h
  | succ fuel ih =>
    intro name path visited cyc vis2 h hchain
    rw [check_circular_succ] at h
    by_cases hmem : path.contains name
    · rw [if_pos hmem] at h
      injection h with h1 h2
      injection h1 with h1
      subst h1
      refine ⟨name, by simp, ?_⟩
      have hm : name ∈ path := by simpa using hmem
      obtain ⟨l1, l2, rfl⟩ := List.append_of_mem hm
      have hsplit : (l1 ++ name :: l2).reverse = l2.reverse ++ name :: l1.reverse := by
        simp
      rw [hsplit] at hchain
      exact chainUp_append tasks l2.reverse l1.reverse name name hchain
    · rw [if_neg hmem] at h
      by_cases hvis : visited.contains name
      · rw [if_pos hvis] at h
        simp at h
      · rw [if_neg hvis] at h
        have hch : ∀ dep ∈ needsOf tasks name,
            ChainUp tasks (path ++ [name]).reverse dep := by
          intro dep hdep
          have : (path ++ [name]).reverse = name :: path.reverse := by simp
          rw [this]
          exact ⟨hdep, hchain⟩
        clear hchain hmem hvis
        generalize hvs : name :: visited = vis0 at h
        clear hvs
        generalize hds : needsOf tasks name = deps at h hch
        clear hds
        induction deps generalizing vis0 with
        | nil => simp [depFold] at h
        | cons d ds ihd =>
          rw [depFold_cons] at h
          rcases hcc : check_circular tasks fuel d (path ++ [name]) vis0 with ⟨r, v3⟩
          rw [hcc] at h
          match r with
          | some c =>
            rw [depFold_some] at h
            injection h with h1 h2
            injection h1 with h1
            subst h1
            exact ih d (path ++ [name]) vis0 c v3 hcc (hch d (by simp))
          | none =>
            exact ihd v3 h (fun dep hd => hch dep (List.mem_cons_of_mem d hd))

/-- Finished (black) nodes of the traversal: every visited node off the current path
has all dependency successors visited and off the path, and lies on no cycle. -/
def BlackInv (tasks : List Task) (visited path : List String) : Prop :=
  ∀ v ∈ visited, v ∉ path →
    (∀ w, Step tasks v w → w ∈ visited ∧ w ∉ path) ∧
    ¬ Relation.TransGen (Step tasks) v v

theorem black_reach (tasks : List Task) (visited path : List String)
    (hb : BlackInv tasks visited path) {v u : String}
    (hr : Relation.ReflTransGen (Step tasks) v u)
    (hv : v ∈ visited) (hvp : v ∉ path) : u ∈ visited ∧ u ∉ path := by
  induction hr with
  | refl => exact ⟨hv, hvp⟩
  | tail _h1 h2 ih => exact (hb _ ih.1 ih.2).1 _ h2

/-- The number of task names not yet visited; this bounds the remaining recursion
depth of check_circular since every nested call first adds a fresh name to visited. -/
def unvisitedCount (tasks : List Task) (visited : List String) : Nat :=
  ((tasks.map Task.name).dedup.filter (fun n => !(visited.contains n))).length

theorem filter_sub_length {α : Type} (p q : α → Bool) (h : ∀ a, p a = true → q a = true) :
    ∀ l : List α, (l.filter p).length ≤ (l.filter q).length := by
  intro l
  induction l with
  | nil => simp
  | cons x rest ih =>
    by_cases hp : p x = true
    · rw [List.filter_cons_of_pos hp, List.filter_cons_of_pos (h x hp)]
      simpa using ih
    · rw [List.filter_cons_of_neg (by simpa using hp)]
      by_cases hq : q x = true
      · rw [List.filter_cons_of_pos hq]
        exact le_trans ih (by simp)
      · rw [List.filter_cons_of_neg (by simpa using hq)]
        exact ih

theorem unvisitedCount_mono (tasks : List Task) (v1 v2 : List String)
    (h : v1 ⊆ v2) : unvisitedCount tasks v2 ≤ unvisitedCount tasks v1 := by
  apply filter_sub_length
  intro a ha
  simp only [Bool.not_eq_true'] at ha ⊢
  rcases hc : v1.contains a with _ | _
  · rfl
  · exact absurd (h (by simpa using hc)) (by simpa using ha)

theorem filter_lt_of_witness {α : Type} (p q : α → Bool) (h : ∀ a, p a = true → q a = true)
    (x : α) (hpx : p x = false) (hqx : q x = true) :
    ∀ l : List α, x ∈ l → (l.filter p).length < (l.filter q).length := by
  intro l
  induction l with
  | nil => intro h0; cases h0
  | cons y rest ih =>
    intro hmem
    by_cases hyx : y = x
    · subst hyx
      rw [List.filter_cons_of_neg (by simp [hpx]), List.filter_cons_of_pos hqx]
      exact Nat.lt_succ_of_le (filter_sub_length p q h rest)
    · have hx2 : x ∈ rest := by
        rcases List.mem_cons.mp hmem with h1 | h1
        · exact absurd h1.symm hyx
        · exact h1
      by_cases hpy : p y = true
      · rw [List.filter_cons_of_pos hpy, List.filter_cons_of_pos (h y hpy)]
        simpa using ih hx2
      · rw [List.filter_cons_of_neg (by simpa using hpy)]
        by_cases hqy : q y = true
        · rw [List.filter_cons_of_pos hqy]
          exact lt_trans (ih hx2) (by simp)
        · rw [List.filter_cons_of_neg (by simpa using hqy)]
          exact ih hx2

theorem unvisitedCount_fresh_lt (tasks : List Task) (visited : List String)
    (name : String) (hmem : name ∈ tasks.map Task.name) (hnv : name ∉ visited) :
    unvisitedCount tasks (name :: visited) < unvisitedCount tasks visited := by
  apply filter_lt_of_witness _ _ ?_ name ?_ ?_ _ (List.mem_dedup.mpr hmem)
  · intro a ha
    simp only [Bool.not_eq_true', List.contains_cons, Bool.or_eq_false_iff] at ha
    simp only [Bool.not_eq_true']
    exact ha.2
  · simp
  · simpa using hnv

theorem needsOf_eq_nil_of_not_mem (tasks : List Task) (name : String)
    (h : name ∉ tasks.map Task.name) : needsOf tasks name = [] := by
  have : lookupTask tasks name = none := by
    rw [lookupTask, List.find?_eq_none]
    intro t ht hbeq
    exact h (List.mem_map.mpr ⟨t, ht, by simpa using hbeq⟩)
  simp [needsOf, this]

/-- A run of check_circular that reports no cycle never had its name on the current
path (otherwise the first branch reports the cycle), provided it had fuel to look. -/
theorem check_circular_none_not_path (tasks : List Task) (fuel : Nat) (name : String)
    (path visited vis2 : List String) (hfuel : 0 < fuel)
    (h : check_circular tasks fuel name path visited = (none, vis2)) : name ∉ path := by
  cases fuel with
  | zero => omega
  | succ fuel =>
    rw [check_circular_succ] at h
    by_cases hmem : path.contains name
    · rw [if_pos hmem] at h
      simp at h
    · simpa using hmem

/-- Completeness of check_circular, fold part: processing a dependency list that
reports no cycle preserves the black invariant, only grows the visited set, and ends
with every dependency visited and off the path. -/
theorem depFold_none (tasks : List Task) (fuel : Nat) (path1 : List String)
    (IH : ∀ name path visited vis2,
      check_circular tasks fuel name path visited = (none, vis2) →
      unvisitedCount tasks visited < fuel → BlackInv tasks visited path →
      visited ⊆ vis2 ∧ BlackInv tasks vis2 path ∧ name ∈ vis2) :
    ∀ (deps vis0 vis2 : List String),
      depFold tasks fuel path1 deps (none, vis0) = (none, vis2) →
      unvisitedCount tasks vis0 < fuel →
      BlackInv tasks vis0 path1 →
      vis0 ⊆ vis2 ∧ BlackInv tasks vis2 path1 ∧ ∀ d ∈ deps, d ∈ vis2 ∧ d ∉ path1 := by
  intro deps
  induction deps with
  | nil =>
    intro vis0 vis2 h _ hb
    injection h with _h1 h2
    subst h2
    exact ⟨List.Subset.refl _, hb, by simp⟩
  | cons d ds ihd =>
    intro vis0 vis2 h hfuel hb
    rw [depFold_cons] at h
    rcases hcc : check_circular tasks fuel d path1 vis0 with ⟨r, v3⟩
    rw [hcc] at h
    match r with
    | some c =>
      rw [depFold_some] at h
      simp at h
    | none =>
      have hdp : d ∉ path1 := check_circular_none_not_path tasks fuel d path1 vis0 v3
        (by omega) hcc
      obtain ⟨hsub1, hb1, hdin⟩ := IH d path1 vis0 v3 hcc hfuel hb
      have hfuel2 : unvisitedCount tasks v3 < fuel :=
        lt_of_le_of_lt (unvisitedCount_mono tasks vis0 v3 hsub1) hfuel
      obtain ⟨hsub2, hb2, hds⟩ := ihd v3 vis2 h hfuel2 hb1
      refine ⟨fun x hx => hsub2 (hsub1 hx), hb2, ?_⟩
      intro x hx
      rcases List.mem_cons.mp hx with h1 | h1
      · subst h1
        exact ⟨hsub2 hdin, hdp⟩
      · exact hds x h1

/-- Completeness of check_circular: with fuel exceeding the number of unvisited task
names, a run that reports no cycle leaves its start name and everything it visited
black, in particular provably off every cycle of the needs relation. -/
theorem check_circular_none (tasks : List Task) : ∀ (fuel : Nat)
    (name : String) (path visited vis2 : List String),
    check_circular tasks fuel name path visited = (none, vis2) →
    unvisitedCount tasks visited < fuel →
    BlackInv tasks visited path →
    visited ⊆ vis2 ∧ BlackInv tasks vis2 path ∧ name ∈ vis2 := by
  intro fuel
  induction fuel with
  | zero =>
    intro name path visited vis2 _ hfuel _
    omega
  | succ fuel ih =>
    intro name path visited vis2 h hfuel hblack
    rw [check_circular_succ] at h
    by_cases hmem : path.contains name
    · rw [if_pos hmem] at h
      simp at h
    · rw [if_neg hmem] at h
      by_cases hvis : visited.contains name
      · rw [if_pos hvis] at h
        injection h with _h1 h2
        subst h2
        exact ⟨List.Subset.refl _, hblack, by simpa using hvis⟩
      · rw [if_neg hvis] at h
        have hnv : name ∉ visited := by simpa using hvis
        have hnp : name ∉ path := by simpa using hmem
        have hb0 : BlackInv tasks (name :: visited) (path ++ [name]) := by
          intro v hv hvp
          rcases List.mem_cons.mp hv with h1 | h1
          · subst h1
            exact absurd (by simp : v ∈ path ++ [v]) hvp
          · have hvp2 : v ∉ path := fun hc => hvp (by simp [hc])
            obtain ⟨hcl, hnc⟩ := hblack v h1 hvp2
            refine ⟨?_, hnc⟩
            intro w hw
            obtain ⟨hw1, hw2⟩ := hcl w hw
            have hwne : w ≠ name := fun hc => hnv (hc ▸ hw1)
            exact ⟨List.mem_cons_of_mem _ hw1, by simp [hw2, hwne]⟩
        by_cases hnames : name ∈ tasks.map Task.name
        · have hfuel0 : unvisitedCount tasks (name :: visited) < fuel := by
            have h1 := unvisitedCount_fresh_lt tasks visited name hnames hnv
            omega
          obtain ⟨hsub, hb1, hdeps⟩ := depFold_none tasks fuel (path ++ [name]) ih
            (needsOf tasks name) (name :: visited) vis2 h hfuel0 hb0
          have hnamein : name ∈ vis2 := hsub (by simp)
          refine ⟨fun x hx => hsub (List.mem_cons_of_mem _ hx), ?_, hnamein⟩
          intro v hv hvp
          by_cases hveq : v = name
          · subst hveq
            constructor
            · intro w hw
              obtain ⟨hw1, hw2⟩ := hdeps w hw
              exact ⟨hw1, fun hc => hw2 (by simp [hc])⟩
            · intro hT
              obtain ⟨w, hw, hwr⟩ := Relation.TransGen.head'_iff.mp hT
              obtain ⟨hw1, hw2⟩ := hdeps w hw
              obtain ⟨_, habs⟩ := black_reach tasks vis2 (path ++ [v]) hb1 hwr hw1 hw2
              exact habs (by simp)
          · have hvp2 : v ∉ path ++ [name] := by
              intro hc
              rcases List.mem_append.mp hc with h1 | h1
              · exact hvp h1
              · exact hveq (by simpa using h1)
            obtain ⟨hcl, hnc⟩ := hb1 v hv hvp2
            refine ⟨?_, hnc⟩
            intro w hw
            obtain ⟨hw1, hw2⟩ := hcl w hw
            exact ⟨hw1, fun hc => hw2 (by simp [hc])⟩
        · rw [needsOf_eq_nil_of_not_mem tasks name hnames] at h
          injection h with _h1 h2
          subst h2
          refine ⟨List.subset_cons_self _ _, ?_, by simp⟩
          intro v hv hvp
          rcases List.mem_cons.mp hv with h1 | h1
          · subst h1
            constructor
            · intro w hw
              rw [Step, needsOf_eq_nil_of_not_mem tasks v hnames] at hw
              cases hw
            · intro hT
              obtain ⟨w, hw, _⟩ := Relation.TransGen.head'_iff.mp hT
              rw [Step, needsOf_eq_nil_of_not_mem tasks v hnames] at hw
              cases hw
          · obtain ⟨hcl, hnc⟩ := hblack v h1 hvp
            refine ⟨?_, hnc⟩
            intro w hw
            obtain ⟨hw1, hw2⟩ := hcl w hw
            exact ⟨List.mem_cons_of_mem _ hw1, hw2⟩

/-- The fuel used by validate_pipeline never runs out: a cycle through a task makes
check_circular started at that task report a cycle path. -/
theorem check_circular_complete (tasks : List Task) (a : String)
    (hcyc : Relation.TransGen (Step tasks) a a) :
    (check_circular tasks (tasks.length + 1) a [] []).1 ≠ none := by
  intro hnone
  rcases hres : check_circular tasks (tasks.length + 1) a [] [] with ⟨r, vis2⟩
  rw [hres] at hnone
  simp only at hnone
  subst hnone
  have hfuel : unvisitedCount tasks [] < tasks.length + 1 := by
    have h1 : unvisitedCount tasks [] ≤ (tasks.map Task.name).dedup.length := by
      rw [unvisitedCount]
      exact (List.filter_sublist _).length_le
    have h2 : (tasks.map Task.name).dedup.length ≤ (tasks.map Task.name).length :=
      (List.dedup_sublist _).length_le
    simp only [List.length_map] at h2
    omega
  have hblack : BlackInv tasks [] [] := by
    intro v hv
    cases hv
  obtain ⟨_, hb, hmem⟩ := check_circular_none tasks (tasks.length + 1) a [] [] vis2
    hres hfuel hblack
  exact (hb a hmem (by simp)).2 hcyc

/-- The per-task error list collected by one iteration of validate_pipeline's loop
(runner.py lines 213-244). -/
def taskErrors (tasks : List Task) (vars : List (String × String)) (t : Task) :
    List ValidationError :=
  (t.needs.filter (fun d => !(tasks.any (fun u => u.name == d)))).map
    (fun d => ValidationError.unknownDep t.name d) ++
  (match (check_circular tasks (tasks.length + 1) t.name [] []).1 with
    | some p => [ValidationError.circular p]
    | none => []) ++
  (if t.is_internal then []
   else
     match validate_template_vars t.cmd vars with
     | [] => []
     | m => [ValidationError.missingVars t.name m])

theorem validate_pipeline_eq_bind (tasks : List Task) (vars : List (String × String)) :
    validate_pipeline tasks vars = tasks.flatMap (taskErrors tasks vars) := by
  rw [validate_pipeline]
  have hgen : ∀ (l : List Task) (init : List ValidationError),
      l.foldl
        (fun errors t =>
          errors ++
            (t.needs.filter (fun d => !(tasks.any (fun u => u.name == d)))).map
              (fun d => ValidationError.unknownDep t.name d) ++
            (match (check_circular tasks (tasks.length + 1) t.name [] []).1 with
              | some p => [ValidationError.circular p]
              | none => []) ++
            (if t.is_internal then []
             else
               match validate_template_vars t.cmd vars with
               | [] => []
               | m => [ValidationError.missingVars t.name m]))
        init = init ++ l.flatMap (taskErrors tasks vars) := by
    intro l
    induction l with
    | nil => intro init; simp
    | cons t rest ih =>
      intro init
      rw [List.foldl_cons, ih, List.flatMap_cons]
      simp [taskErrors, List.append_assoc]
  simpa using hgen tasks []

theorem step_task_exists (tasks : List Task) (a b : String) (h : Step tasks a b) :
    ∃ t ∈ tasks, t.name = a := by
  rw [Step, needsOf] at h
  rcases hl : lookupTask tasks a with _ | t
  · rw [hl] at h
    cases h
  · have hm := List.mem_of_find?_eq_some hl
    have hp := List.find?_some hl
    exact ⟨t, hm, by simpa using hp⟩


/-- A rank function decreasing along every dependency edge rules out cycles; the
hypothesis quantifies over the task list so a concrete witness can discharge it by
decide. -/
theorem no_cycle_of_rank (tasks : List Task) (r : String → Nat)
    (h : ∀ t ∈ tasks, ∀ d ∈ t.needs, r d < r t.name) : ¬ HasCycle tasks := by
  have hstep : ∀ a b, Step tasks a b → r b < r a := by
    intro a b hab
    rw [Step, needsOf] at hab
    rcases hl : lookupTask tasks a with _ | u
    · rw [hl] at hab
      cases hab
    · rw [hl] at hab
      simp only [Option.elim] at hab
      have hu := List.mem_of_find?_eq_some hl
      have hun : u.name = a := by simpa using List.find?_some hl
      calc r b < r u.name := h u hu b hab
        _ = r a := by rw [hun]
  rintro ⟨a, hc⟩
  have hlt : ∀ x y, Relation.TransGen (Step tasks) x y → r y < r x := by
    intro x y hxy
    induction hxy with
    | single h1 => exact hstep _ _ h1
    | tail _h1 h2 ih => exact lt_trans (hstep _ _ h2) ih
  exact lt_irrefl _ (hlt a a hc)

/-- Any cyclic pipeline makes validate_pipeline report a circular-dependency error
whose path contains a task lying on a cycle; shared by several claim theorems. -/
theorem validate_pipeline_cycle_error (tasks : List Task) (vars : List (String × String))
    (hcyc : HasCycle tasks) :
    ∃ p, ValidationError.circular p ∈ validate_pipeline tasks vars ∧
      ∃ a ∈ p, Relation.TransGen (Step tasks) a a := by
  obtain ⟨a, ha⟩ := hcyc
  obtain ⟨w, hw, _⟩ := Relation.TransGen.head'_iff.mp ha
  obtain ⟨t, ht, hta⟩ := step_task_exists tasks a w hw
  rcases hr : check_circular tasks (tasks.length + 1) t.name [] [] with ⟨r, v⟩
  match r with
  | none =>
    have habs := check_circular_complete tasks a (by exact ha)
    rw [← hta, hr] at habs
    exact absurd rfl habs
  | some p =>
    obtain ⟨b, hb, hT⟩ :=
      check_circular_sound tasks (tasks.length + 1) t.name [] [] p v hr trivial
    refine ⟨p, ?_, b, hb, hT⟩
    rw [validate_pipeline_eq_bind]
    apply List.mem_flatMap.mpr
    refine ⟨t, ht, ?_⟩
    rw [taskErrors, hr]
    simp

/-- C4: for every pipeline whose dependency references all exist and whose command
variables are all defined, validate_pipeline returns zero errors when the needs
relation is acyclic; and for any pipeline containing a cycle it returns at least one
circular-dependency error whose reported path names a task lying on a cycle. -/
theorem C4_validate_pipeline_cycle_detection (tasks : List Task)
    (vars : List (String × String)) :
    ((∀ t ∈ tasks, ∀ d ∈ t.needs, ∃ u ∈ tasks, u.name = d) →
     (∀ t ∈ tasks, t.is_internal = false → validate_template_vars t.cmd vars = []) →
     ¬ HasCycle tasks →
     validate_pipeline tasks vars = []) ∧
    (HasCycle tasks →
     ∃ p, ValidationError.circular p ∈ validate_pipeline tasks vars ∧
       ∃ a ∈ p, Relation.TransGen (Step tasks) a a) := by
  constructor
  · intro hdeps hvars hacyc
    rw [validate_pipeline_eq_bind, List.flatMap_eq_nil_iff]
    intro t ht
    rw [taskErrors]
    have h1 : t.needs.filter (fun d => !(tasks.any (fun u => u.name == d))) = [] := by
      rw [List.filter_eq_nil_iff]
      intro d hd
      obtain ⟨u, hu, hud⟩ := hdeps t ht d hd
      simp only [Bool.not_eq_true', Bool.not_eq_false]
      exact List.any_eq_true.mpr ⟨u, hu, by simp [hud]⟩
    rw [h1]
    rcases hr : check_circular tasks (tasks.length + 1) t.name [] [] with ⟨r, v⟩
    match r with
    | some p =>
      obtain ⟨a, _, hT⟩ :=
        check_circular_sound tasks (tasks.length + 1) t.name [] [] p v hr trivial
      exact absurd ⟨a, hT⟩ hacyc
    | none =>
      by_cases hint : t.is_internal
      · simp [hint]
      · have hmv := hvars t ht (by simpa using hint)
        simp [hint, hmv]
  · exact validate_pipeline_cycle_error tasks vars

/-- Acyclic two-task pipeline used by the C4 witness. -/
def c4Acyclic : List Task :=
  [⟨"a", "", "shell", []⟩, ⟨"b", "", "shell", ["a"]⟩]

/-- Self-cycle pipeline used by the C4 witness. -/
def c4Cyclic : List Task := [⟨"c", "", "shell", ["c"]⟩]

/-- C4 (witness): the claim theorem applied at concrete pipelines: the acyclic one
validates with zero errors, the self-cycle one reports a circular error naming a task
on the cycle. -/
theorem C4_validate_pipeline_cycle_detection_witness :
    validate_pipeline c4Acyclic [] = [] ∧
    ∃ p, ValidationError.circular p ∈ validate_pipeline c4Cyclic [] ∧
      ∃ a ∈ p, Relation.TransGen (Step c4Cyclic) a a := by
  constructor
  · apply (C4_validate_pipeline_cycle_detection c4Acyclic []).1
    · decide
    · decide
    · exact no_cycle_of_rank c4Acyclic (fun n => if n = "b" then 1 else 0) (by decide)
  · exact (C4_validate_pipeline_cycle_detection c4Cyclic []).2
      ⟨"c", Relation.TransGen.single (show ("c" : String) ∈ needsOf c4Cyclic "c" by decide)⟩

/-- One raw pipeline entry as read from tasks.yaml, the fields load_tasks consults:
a possibly missing name (task_config.get of runner.py line 183) plus the data that
Task.__init__ copies. -/
structure RawTask where
  name : Option String
  cmd : String
  kind : String
  needs : List String
deriving DecidableEq, Repr

/-- Python dict insertion self.tasks[task_name] = task (runner.py line 189): an
existing key keeps its position and silently receives the new value, a new key is
appended at the end. -/
def dictInsert (t : Task) : List Task → List Task
  | [] => [t]
  | u :: rest => if u.name = t.name then t :: rest else u :: dictInsert t rest

/-- The enumerate loop of TaskRunner.load_tasks (runner.py lines 182-189): walk the
pipeline in order carrying the entry index; the first entry without a name aborts
immediately, reporting only that index (logger.error of line 185 followed by return
False on line 186); otherwise the task is inserted into the dict. -/
def loadTasksLoop : Nat → List Task → List RawTask → Except Nat (List Task)
  | _, acc, [] => .ok acc
  | i, _, ⟨none, _, _, _⟩ :: _ => .error i
  | i, acc, ⟨some n, cmd, kind, needs⟩ :: rest =>
    loadTasksLoop (i + 1) (dictInsert ⟨n, cmd, kind, needs⟩ acc) rest

/-- Model of TaskRunner.load_tasks (runner.py lines 148-201) restricted to the task
construction: file handling and YAML parsing are outside the embedding; error i stands
for the message Task i missing name and the early return False. -/
def load_tasks (pipeline : List RawTask) : Except Nat (List Task) :=
  loadTasksLoop 0 [] pipeline

theorem loadTasksLoop_first_missing (raw : RawTask) (hraw : raw.name = none) :
    ∀ (pre : List RawTask), (∀ x ∈ pre, x.name ≠ none) →
    ∀ (post : List RawTask) (i : Nat) (acc : List Task),
      loadTasksLoop i acc (pre ++ raw :: post) = .error (i + pre.length) := by
  rcases raw with ⟨rname, rcmd, rkind, rneeds⟩
  simp only at hraw
  subst hraw
  intro pre
  induction pre with
  | nil =>
    intro _ post i acc
    simp [loadTasksLoop]
  | cons x rest ih =>
    intro hpre post i acc
    rcases x with ⟨xname, xcmd, xkind, xneeds⟩
    rcases hx : xname with _ | n
    · subst hx
      exact absurd rfl (hpre ⟨none, xcmd, xkind, xneeds⟩ (by simp))
    · subst hx
      rw [List.cons_append, loadTasksLoop]
      rw [ih (fun y hy => hpre y (List.mem_cons_of_mem _ hy)) post]
      congr 1
      simp only [List.length_cons]
      omega

theorem dictInsert_length_of_dup (t : Task) :
    ∀ acc : List Task, (∃ u ∈ acc, u.name = t.name) →
      (dictInsert t acc).length = acc.length := by
  intro acc
  induction acc with
  | nil => rintro ⟨u, hu, _⟩; cases hu
  | cons u rest ih =>
    rintro ⟨w, hw, hwname⟩
    by_cases hu : u.name = t.name
    · simp [dictInsert, hu]
    · rw [dictInsert, if_neg hu]
      have hwrest : w ∈ rest := by
        rcases List.mem_cons.mp hw with h1 | h1
        · subst h1
          exact absurd hwname hu
        · exact h1
      simp [ih ⟨w, hwrest, hwname⟩]

/-- C5 (amended): unknown-dependency, cyclic-dependency and undefined-variable errors
are all collected by validate_pipeline in one pass before anything runs (every such
error appears in the returned list, not only the first); but a pipeline entry without
a name aborts loading at the first offender, reporting only its index, and a
duplicated task name is never reported: the later definition silently overwrites the
earlier one in place. -/
theorem C5_error_collection :
    (∀ (tasks : List Task) (vars : List (String × String)), ∀ t ∈ tasks,
      ∀ d ∈ t.needs, (∀ u ∈ tasks, u.name ≠ d) →
        ValidationError.unknownDep t.name d ∈ validate_pipeline tasks vars) ∧
    (∀ (tasks : List Task) (vars : List (String × String)), ∀ t ∈ tasks,
      t.is_internal = false → validate_template_vars t.cmd vars ≠ [] →
        ValidationError.missingVars t.name (validate_template_vars t.cmd vars)
          ∈ validate_pipeline tasks vars) ∧
    (∀ (tasks : List Task) (vars : List (String × String)), HasCycle tasks →
      ∃ p, ValidationError.circular p ∈ validate_pipeline tasks vars) ∧
    (∀ (raw : RawTask), raw.name = none → ∀ (pre : List RawTask),
      (∀ x ∈ pre, x.name ≠ none) → ∀ (post : List RawTask),
        load_tasks (pre ++ raw :: post) = .error pre.length) ∧
    (∀ (t : Task) (acc : List Task), (∃ u ∈ acc, u.name = t.name) →
      (dictInsert t acc).length = acc.length) := by
  refine ⟨?_, ?_, ?_, ?_, ?_⟩
  · intro tasks vars t ht d hd hunknown
    rw [validate_pipeline_eq_bind]
    apply List.mem_flatMap.mpr
    refine ⟨t, ht, ?_⟩
    rw [taskErrors]
    apply List.mem_append.mpr
    apply Or.inl
    apply List.mem_append.mpr
    apply Or.inl
    apply List.mem_map.mpr
    refine ⟨d, ?_, rfl⟩
    apply List.mem_filter.mpr
    refine ⟨hd, ?_⟩
    simp only [Bool.not_eq_true', Bool.not_eq_false]
    rw [List.any_eq_false]
    intro u hu
    simpa using hunknown u hu
  · intro tasks vars t ht hint hne
    rw [validate_pipeline_eq_bind]
    apply List.mem_flatMap.mpr
    refine ⟨t, ht, ?_⟩
    rw [taskErrors]
    apply List.mem_append.mpr
    apply Or.inr
    rw [if_neg (by simp [hint])]
    rcases hm : validate_template_vars t.cmd vars with _ | ⟨x, xs⟩
    · exact absurd hm hne
    · simp [hm]
  · intro tasks vars hcyc
    obtain ⟨p, hp, _⟩ := validate_pipeline_cycle_error tasks vars hcyc
    exact ⟨p, hp⟩
  · intro raw hraw pre hpre post
    rw [load_tasks, loadTasksLoop_first_missing raw hraw pre hpre post 0]
    simp
  · intro t acc h
    exact dictInsert_length_of_dup t acc h

/-- Pipeline with two identically named entries, used against C5. -/
def c5Dup : List RawTask :=
  [⟨some "a", "x", "shell", []⟩, ⟨some "a", "y", "shell", []⟩]

/-- Pipeline whose first two entries both lack a name, used against C5. -/
def c5Missing : List RawTask :=
  [⟨none, "x", "shell", []⟩, ⟨none, "y", "shell", []⟩]

/-- C5 (counterexample): a duplicated task name produces no validation error at all
(the second definition silently replaces the first, and validate_pipeline returns an
empty list), and two entries missing a name are not collected together: loading stops
at index 0, so not every definition error is detected and reported in one pass. -/
theorem C5_not_all_definition_errors_reported :
    load_tasks c5Dup = .ok [⟨"a", "y", "shell", []⟩] ∧
    validate_pipeline [Task.mk "a" "y" "shell" []] [] = [] ∧
    c5Dup.length = 2 ∧
    load_tasks c5Missing = .error 0 := by
  refine ⟨rfl, by decide, by decide, rfl⟩

/-- Mutable scheduler state of TaskRunner._execute_pipeline (runner.py lines 330-336):
the per-task status field, the completed and failed sets shared with the instance, the
keys of the local running_tasks dict in insertion order, and the use_database flag
maintained by _safe_db_call. -/
structure PipelineState where
  status : String → TaskStatus
  completed : List String
  failed : List String
  running : List String
  useDatabase : Bool

/-- The external inputs one scheduler iteration reacts to: whether the stop flag or
stop event is observed (runner.py line 342), which running futures report done this
iteration (line 373), and whether the database calls issued this iteration succeed
(modelling _safe_db_call, lines 89-99). -/
structure IterInput where
  stopFlag : Bool
  finished : List String
  dbOk : Bool

/-- State at the top of _execute_pipeline: every task Pending (Task.__init__ line 39),
all sets empty, the database flag as configured. -/
def initState (useDb : Bool) : PipelineState :=
  ⟨fun _ => TaskStatus.PENDING, [], [], [], useDb⟩

/-- The ready scan (runner.py lines 347-353): Pending tasks whose needs are all in the
completed set and that are not already running, in definition order. -/
def readyTasks (tasks : List Task) (s : PipelineState) : List Task :=
  tasks.filter (fun t =>
    (s.status t.name == TaskStatus.PENDING) && t.is_ready s.completed &&
      !(s.running.contains t.name))

/-- Python list slicing lst[:n] with a possibly negative stop as used at runner.py
line 364: a negative stop counts from the end (stop becomes len + n, clamped at 0). -/
def pySlice {α : Type} (l : List α) (n : Int) : List α :=
  l.take (if 0 ≤ n then n.toNat else ((l.length : Int) + n).toNat)

/-- Pointwise status update for a list of task names. -/
def setStatuses (names : List String) (st : TaskStatus) (f : String → TaskStatus) :
    String → TaskStatus :=
  fun n => if names.contains n then st else f n

/-- Why the scheduler loop exited: the stop-signal break of runner.py line 345 or the
no-work break of line 398. -/
inductive LoopExit where
  | stopped
  | drained
deriving DecidableEq, Repr

/-- Result of one loop iteration: either the loop broke or it continues. -/
inductive StepResult where
  | broke (s : PipelineState) (e : LoopExit)
  | next (s : PipelineState)

/-- The state carried by a step result. -/
def StepResult.state : StepResult → PipelineState
  | .broke s _ => s
  | .next s => s

/-- The exit tag carried by a step result. -/
def StepResult.exitTag : StepResult → Option LoopExit
  | .broke _ e => some e
  | .next _ => none

/-- Model of _cancel_running_tasks (runner.py lines 609-620): every task in the
running dict has its future cancelled, its process tree killed and its status set to
Cancelled; the local dict itself is not cleared because the loop breaks immediately
afterwards. -/
def cancel_running_tasks (s : PipelineState) : PipelineState :=
  { s with status := setStatuses s.running TaskStatus.CANCELLED s.status }

/-- The admission bookkeeping of one iteration (runner.py lines 362-368): the
admitted tasks transition to Running and join the running dict; normalStep passes the
sliced prefix of the ready list. -/
def admitState (s : PipelineState) (adm : List Task) : PipelineState :=
  { s with
    status := setStatuses (adm.map Task.name) TaskStatus.RUNNING s.status
    running := s.running ++ adm.map Task.name }

/-- The completion bookkeeping of one iteration (runner.py lines 370-394): futures
that report done are moved out of running; a True result marks Done and joins the
completed set, anything else marks Error and joins the failed set. -/
def finishProcessing (outcome : String → Bool) (finished : List String) (dbOk : Bool)
    (s1 : PipelineState) : PipelineState :=
  let done := s1.running.filter (fun n => finished.contains n)
  { status := fun n =>
      if done.contains n then
        (if outcome n then TaskStatus.DONE else TaskStatus.ERROR)
      else s1.status n
    completed := s1.completed ++ done.filter (fun n => outcome n)
    failed := s1.failed ++ done.filter (fun n => !(outcome n))
    running := s1.running.filter (fun n => !(done.contains n))
    useDatabase := s1.useDatabase && dbOk }

def normalStep (tasks : List Task) (concurrency : Nat) (outcome : String → Bool)
    (inp : IterInput) (s : PipelineState) : PipelineState :=
  finishProcessing outcome inp.finished inp.dbOk
    (admitState s
      (pySlice (readyTasks tasks s) ((concurrency : Int) - (s.running.length : Int))))

/-- One iteration of the while-loop of _execute_pipeline (runner.py lines 340-401):
the stop check and cancellation break (342-345), then the normal body, then the
termination check on the pre-admission ready list and the emptied running dict
(396-398); readyTasks is recomputed there since it is a pure function of the
pre-iteration state. -/
def pipelineStep (tasks : List Task) (concurrency : Nat) (outcome : String → Bool)
    (inp : IterInput) (s : PipelineState) : StepResult :=
  if inp.stopFlag then
    .broke (cancel_running_tasks { s with useDatabase := s.useDatabase && inp.dbOk })
      .stopped
  else
    let s2 := normalStep tasks concurrency outcome inp s
    if s2.running.isEmpty && (readyTasks tasks s).isEmpty then .broke s2 .drained
    else .next s2

/-- The scheduler trace: the state before iteration k, starting from initState.  Once
the loop has exited the state freezes and the exit reason is recorded. -/
def runTrace (tasks : List Task) (concurrency : Nat) (outcome : String → Bool)
    (sched : Nat → IterInput) (useDb : Bool) : Nat → PipelineState × Option LoopExit
  | 0 => (initState useDb, none)
  | k + 1 =>
    match runTrace tasks concurrency outcome sched useDb k with
    | (s, some e) => (s, some e)
    | (s, none) =>
      match pipelineStep tasks concurrency outcome (sched k) s with
      | .broke s2 e => (s2, some e)
      | .next s2 => (s2, none)

/-- The success verdict and final run status computed by TaskRunner.run (runner.py
lines 304-307 and 413): success iff the failed set is empty, final status Done or
Error accordingly; RunStatus.CANCELLED is never produced there. -/
def runVerdict (s : PipelineState) : Bool × RunStatus :=
  (s.failed.isEmpty, if s.failed.isEmpty then RunStatus.DONE else RunStatus.ERROR)

/-- The task filter applied by TaskRunner.run (runner.py lines 273-279): keep the
tasks whose name is listed; an empty result aborts the run before anything starts. -/
def filterTasks (tasks : List Task) (task_filter : List String) : List Task :=
  tasks.filter (fun t => task_filter.contains t.name)

/-- The max_workers argument of the executor (runner.py line 337:
ThreadPoolExecutor(max_workers=self.concurrency)). -/
def executor_max_workers (concurrency : Nat) : Nat := concurrency

theorem mem_readyTasks (tasks : List Task) (s : PipelineState) (t : Task) :
    t ∈ readyTasks tasks s ↔
      t ∈ tasks ∧ s.status t.name = TaskStatus.PENDING ∧
        (∀ d ∈ t.needs, d ∈ s.completed) ∧ t.name ∉ s.running := by
  simp [readyTasks, List.mem_filter, Task.is_ready, List.all_eq_true, and_assoc]

theorem pySlice_sublist {α : Type} (l : List α) (n : Int) : (pySlice l n).Sublist l :=
  List.take_sublist _ _

theorem pySlice_length_le {α : Type} (l : List α) (n : Int) (h : 0 ≤ n) :
    (pySlice l n).length ≤ n.toNat := by
  rw [pySlice, if_pos h]
  exact (List.length_take_le _ _)

theorem eq_of_name_eq {tasks : List Task} (hnodup : (tasks.map Task.name).Nodup)
    {t u : Task} (ht : t ∈ tasks) (hu : u ∈ tasks) (h : t.name = u.name) : t = u :=
  List.inj_on_of_nodup_map hnodup ht hu h

/-- The inductive invariant of the scheduler loop tying the per-task status field to
the bookkeeping sets of _execute_pipeline. -/
structure SchedInv (tasks : List Task) (concurrency : Nat) (outcome : String → Bool)
    (s : PipelineState) : Prop where
  run_nodup : s.running.Nodup
  run_fwd : ∀ n ∈ s.running,
    s.status n = TaskStatus.RUNNING ∨ s.status n = TaskStatus.CANCELLED
  run_back : ∀ n, s.status n = TaskStatus.RUNNING → n ∈ s.running
  comp_status : ∀ n ∈ s.completed, s.status n = TaskStatus.DONE
  fail_status : ∀ n ∈ s.failed, s.status n = TaskStatus.ERROR
  done_comp : ∀ n, s.status n = TaskStatus.DONE → n ∈ s.completed
  comp_outcome : ∀ n ∈ s.completed, outcome n = true
  fail_outcome : ∀ n ∈ s.failed, outcome n = false
  nonpending_needs : ∀ t ∈ tasks, s.status t.name ≠ TaskStatus.PENDING →
    ∀ d ∈ t.needs, d ∈ s.completed
  named_pending : ∀ n, (∀ t ∈ tasks, t.name ≠ n) → s.status n = TaskStatus.PENDING
  comp_names : ∀ n ∈ s.completed, ∃ t ∈ tasks, t.name = n
  run_names : ∀ n ∈ s.running, ∃ t ∈ tasks, t.name = n
  run_le : s.running.length ≤ concurrency

theorem schedInv_init (tasks : List Task) (concurrency : Nat) (outcome : String → Bool)
    (useDb : Bool) : SchedInv tasks concurrency outcome (initState useDb) := by
  refine ⟨?_, ?_, ?_, ?_, ?_, ?_, ?_, ?_, ?_, ?_, ?_, ?_, ?_⟩ <;>
    simp [initState]

theorem contains_eq_true_iff (l : List String) (n : String) :
    l.contains n = true ↔ n ∈ l := by
  simp

theorem schedInv_finish (tasks : List Task) (concurrency : Nat) (outcome : String → Bool)
    (finished : List String) (dbOk : Bool) (s1 : PipelineState)
    (hinv : SchedInv tasks concurrency outcome s1) :
    SchedInv tasks concurrency outcome (finishProcessing outcome finished dbOk s1) := by
  have hdone_run : ∀ n ∈ s1.running.filter (fun n => finished.contains n), n ∈ s1.running :=
    fun n hn => (List.mem_filter.mp hn).1
  have hdone_status : ∀ n ∈ s1.running.filter (fun n => finished.contains n),
      s1.status n = TaskStatus.RUNNING ∨ s1.status n = TaskStatus.CANCELLED :=
    fun n hn => hinv.run_fwd n (hdone_run n hn)
  refine
    { run_nodup := ?_, run_fwd := ?_, run_back := ?_, comp_status := ?_,
      fail_status := ?_, done_comp := ?_, comp_outcome := ?_, fail_outcome := ?_,
      nonpending_needs := ?_, named_pending := ?_, comp_names := ?_, run_names := ?_,
      run_le := ?_ }
  · exact hinv.run_nodup.filter _
  · intro n hn
    obtain ⟨hn1, hn2⟩ := List.mem_filter.mp hn
    simp only [Bool.not_eq_true'] at hn2
    simp only [finishProcessing, hn2, if_false]
    exact hinv.run_fwd n hn1
  · intro n hst
    simp only [finishProcessing] at hst
    by_cases hd : (s1.running.filter (fun n => finished.contains n)).contains n
    · rw [if_pos hd] at hst
      split at hst <;> simp at hst
    · rw [if_neg hd] at hst
      have := hinv.run_back n hst
      simp only [finishProcessing]
      apply List.mem_filter.mpr
      exact ⟨this, by simp only [Bool.not_eq_true']; exact Bool.eq_false_iff.mpr hd⟩
  · intro n hn
    simp only [finishProcessing] at hn ⊢
    rcases List.mem_append.mp hn with h1 | h1
    · have hst := hinv.comp_status n h1
      have hnd : ¬(s1.running.filter (fun n => finished.contains n)).contains n := by
        rw [contains_eq_true_iff]
        intro hc
        rcases hdone_status n hc with h2 | h2 <;> rw [hst] at h2 <;> cases h2
      rw [if_neg hnd]
      exact hst
    · obtain ⟨h2, h3⟩ := List.mem_filter.mp h1
      rw [if_pos (by rw [contains_eq_true_iff]; exact h2), if_pos h3]
  · intro n hn
    simp only [finishProcessing] at hn ⊢
    rcases List.mem_append.mp hn with h1 | h1
    · have hst := hinv.fail_status n h1
      have hnd : ¬(s1.running.filter (fun n => finished.contains n)).contains n := by
        rw [contains_eq_true_iff]
        intro hc
        rcases hdone_status n hc with h2 | h2 <;> rw [hst] at h2 <;> cases h2
      rw [if_neg hnd]
      exact hst
    · obtain ⟨h2, h3⟩ := List.mem_filter.mp h1
      simp only [Bool.not_eq_true'] at h3
      rw [if_pos (by rw [contains_eq_true_iff]; exact h2), h3]
      simp
  · intro n hst
    simp only [finishProcessing] at hst ⊢
    by_cases hd : (s1.running.filter (fun n => finished.contains n)).contains n
    · rw [if_pos hd] at hst
      apply List.mem_append.mpr
      right
      apply List.mem_filter.mpr
      refine ⟨(contains_eq_true_iff _ _).mp hd, ?_⟩
      by_cases ho : outcome n = true
      · exact ho
      · rw [if_neg ho] at hst
        cases hst
    · rw [if_neg hd] at hst
      exact List.mem_append.mpr (Or.inl (hinv.done_comp n hst))
  · intro n hn
    simp only [finishProcessing] at hn
    rcases List.mem_append.mp hn with h1 | h1
    · exact hinv.comp_outcome n h1
    · exact (List.mem_filter.mp h1).2
  · intro n hn
    simp only [finishProcessing] at hn
    rcases List.mem_append.mp hn with h1 | h1
    · exact hinv.fail_outcome n h1
    · have := (List.mem_filter.mp h1).2
      simpa using this
  · intro t ht hst d hd
    simp only [finishProcessing] at hst ⊢
    apply List.mem_append.mpr
    left
    by_cases hdn : (s1.running.filter (fun n => finished.contains n)).contains t.name
    · have hrun := hdone_run t.name ((contains_eq_true_iff _ _).mp hdn)
      have hne : s1.status t.name ≠ TaskStatus.PENDING := by
        rcases hinv.run_fwd t.name hrun with h2 | h2 <;> rw [h2] <;> intro hc <;> cases hc
      exact hinv.nonpending_needs t ht hne d hd
    · rw [if_neg hdn] at hst
      exact hinv.nonpending_needs t ht hst d hd
  · intro n hno
    simp only [finishProcessing]
    have hnr : n ∉ s1.running := by
      intro hc
      obtain ⟨t, ht, htn⟩ := hinv.run_names n hc
      exact hno t ht htn
    have hnd : ¬(s1.running.filter (fun n => finished.contains n)).contains n := by
      rw [contains_eq_true_iff]
      intro hc
      exact hnr (hdone_run n hc)
    rw [if_neg hnd]
    exact hinv.named_pending n hno
  · intro n hn
    simp only [finishProcessing] at hn
    rcases List.mem_append.mp hn with h1 | h1
    · exact hinv.comp_names n h1
    · exact hinv.run_names n (hdone_run n (List.mem_filter.mp h1).1)
  · intro n hn
    simp only [finishProcessing] at hn
    exact hinv.run_names n (List.mem_filter.mp hn).1
  · simp only [finishProcessing]
    exact le_trans (List.length_filter_le _ _) hinv.run_le

theorem schedInv_admit (tasks : List Task) (concurrency : Nat) (outcome : String → Bool)
    (hnodup : (tasks.map Task.name).Nodup) (s : PipelineState)
    (hinv : SchedInv tasks concurrency outcome s)
    (adm : List Task) (hadm : adm.Sublist (readyTasks tasks s))
    (hlen : s.running.length + adm.length ≤ concurrency) :
    SchedInv tasks concurrency outcome (admitState s adm) := by
  have hready : ∀ u ∈ adm, u ∈ tasks ∧ s.status u.name = TaskStatus.PENDING ∧
      (∀ d ∈ u.needs, d ∈ s.completed) ∧ u.name ∉ s.running :=
    fun u hu => (mem_readyTasks tasks s u).mp (hadm.subset hu)
  have hadmN_nodup : (adm.map Task.name).Nodup := by
    have h1 : adm.Sublist tasks := hadm.trans (List.filter_sublist _)
    exact hnodup.sublist (h1.map Task.name)
  have hmemN : ∀ n ∈ adm.map Task.name, ∃ u ∈ adm, u.name = n := by
    intro n hn
    obtain ⟨u, hu, hun⟩ := List.mem_map.mp hn
    exact ⟨u, hu, hun⟩
  have hstatusN : ∀ n ∈ adm.map Task.name, s.status n = TaskStatus.PENDING := by
    intro n hn
    obtain ⟨u, hu, hun⟩ := hmemN n hn
    exact hun ▸ (hready u hu).2.1
  have hdisjN : ∀ n ∈ adm.map Task.name, n ∉ s.running := by
    intro n hn
    obtain ⟨u, hu, hun⟩ := hmemN n hn
    exact hun ▸ (hready u hu).2.2.2
  have hnamesN : ∀ n ∈ adm.map Task.name, ∃ t ∈ tasks, t.name = n := by
    intro n hn
    obtain ⟨u, hu, hun⟩ := hmemN n hn
    exact ⟨u, (hready u hu).1, hun⟩
  refine
    { run_nodup := ?_, run_fwd := ?_, run_back := ?_, comp_status := ?_,
      fail_status := ?_, done_comp := ?_, comp_outcome := ?_, fail_outcome := ?_,
      nonpending_needs := ?_, named_pending := ?_, comp_names := ?_, run_names := ?_,
      run_le := ?_ }
  · exact hinv.run_nodup.append hadmN_nodup (fun a ha hb => hdisjN a hb ha)
  · intro n hn
    simp only [admitState, setStatuses]
    rcases List.mem_append.mp hn with h1 | h1
    · rw [if_neg (by rw [contains_eq_true_iff]; exact fun hc => hdisjN n hc h1)]
      exact hinv.run_fwd n h1
    · rw [if_pos (by rw [contains_eq_true_iff]; exact h1)]
      exact Or.inl rfl
  · intro n hst
    simp only [admitState, setStatuses] at hst ⊢
    by_cases hc : (adm.map Task.name).contains n
    · exact List.mem_append.mpr (Or.inr ((contains_eq_true_iff _ _).mp hc))
    · rw [if_neg hc] at hst
      exact List.mem_append.mpr (Or.inl (hinv.run_back n hst))
  · intro n hn
    simp only [admitState, setStatuses]
    have hst := hinv.comp_status n hn
    rw [if_neg ?_]
    · exact hst
    · rw [contains_eq_true_iff]
      intro hc
      rw [hstatusN n hc] at hst
      cases hst
  · intro n hn
    simp only [admitState, setStatuses]
    have hst := hinv.fail_status n hn
    rw [if_neg ?_]
    · exact hst
    · rw [contains_eq_true_iff]
      intro hc
      rw [hstatusN n hc] at hst
      cases hst
  · intro n hst
    simp only [admitState, setStatuses] at hst ⊢
    by_cases hc : (adm.map Task.name).contains n
    · rw [if_pos hc] at hst
      cases hst
    · rw [if_neg hc] at hst
      exact hinv.done_comp n hst
  · exact hinv.comp_outcome
  · exact hinv.fail_outcome
  · intro t ht hst d hd
    simp only [admitState, setStatuses] at hst ⊢
    by_cases hc : (adm.map Task.name).contains t.name
    · obtain ⟨u, hu, hun⟩ := hmemN t.name ((contains_eq_true_iff _ _).mp hc)
      have hut : u = t := eq_of_name_eq hnodup (hready u hu).1 ht hun
      subst hut
      exact (hready u hu).2.2.1 d hd
    · rw [if_neg hc] at hst
      exact hinv.nonpending_needs t ht hst d hd
  · intro n hno
    simp only [admitState, setStatuses]
    rw [if_neg ?_]
    · exact hinv.named_pending n hno
    · rw [contains_eq_true_iff]
      intro hc
      obtain ⟨t, ht, htn⟩ := hnamesN n hc
      exact hno t ht htn
  · exact hinv.comp_names
  · intro n hn
    simp only [admitState] at hn
    rcases List.mem_append.mp hn with h1 | h1
    · exact hinv.run_names n h1
    · exact hnamesN n h1
  · simp only [admitState, List.length_append, List.length_map]
    exact hlen

theorem schedInv_cancel (tasks : List Task) (concurrency : Nat) (outcome : String → Bool)
    (s : PipelineState) (b : Bool) (hinv : SchedInv tasks concurrency outcome s) :
    SchedInv tasks concurrency outcome
      (cancel_running_tasks { s with useDatabase := b }) := by
  refine
    { run_nodup := hinv.run_nodup, run_fwd := ?_, run_back := ?_, comp_status := ?_,
      fail_status := ?_, done_comp := ?_, comp_outcome := hinv.comp_outcome,
      fail_outcome := hinv.fail_outcome, nonpending_needs := ?_, named_pending := ?_,
      comp_names := hinv.comp_names, run_names := hinv.run_names,
      run_le := hinv.run_le }
  · intro n hn
    simp only [cancel_running_tasks, setStatuses]
    rw [if_pos (by rw [contains_eq_true_iff]; exact hn)]
    exact Or.inr rfl
  · intro n hst
    simp only [cancel_running_tasks, setStatuses] at hst
    by_cases hc : s.running.contains n
    · rw [if_pos hc] at hst
      cases hst
    · rw [if_neg hc] at hst
      exact hinv.run_back n hst
  · intro n hn
    simp only [cancel_running_tasks, setStatuses]
    have hst := hinv.comp_status n hn
    rw [if_neg ?_]
    · exact hst
    · rw [contains_eq_true_iff]
      intro hc
      rcases hinv.run_fwd n hc with h2 | h2 <;> rw [hst] at h2 <;> cases h2
  · intro n hn
    simp only [cancel_running_tasks, setStatuses]
    have hst := hinv.fail_status n hn
    rw [if_neg ?_]
    · exact hst
    · rw [contains_eq_true_iff]
      intro hc
      rcases hinv.run_fwd n hc with h2 | h2 <;> rw [hst] at h2 <;> cases h2
  · intro n hst
    simp only [cancel_running_tasks, setStatuses] at hst
    by_cases hc : s.running.contains n
    · rw [if_pos hc] at hst
      cases hst
    · rw [if_neg hc] at hst
      exact hinv.done_comp n hst
  · intro t ht hst d hd
    simp only [cancel_running_tasks, setStatuses] at hst
    by_cases hc : s.running.contains t.name
    · have hfw := hinv.run_fwd t.name ((contains_eq_true_iff _ _).mp hc)
      have hne : s.status t.name ≠ TaskStatus.PENDING := by
        rcases hfw with h2 | h2 <;> rw [h2] <;> intro hcc <;> cases hcc
      exact hinv.nonpending_needs t ht hne d hd
    · rw [if_neg hc] at hst
      exact hinv.nonpending_needs t ht hst d hd
  · intro n hno
    simp only [cancel_running_tasks, setStatuses]
    rw [if_neg ?_]
    · exact hinv.named_pending n hno
    · rw [contains_eq_true_iff]
      intro hc
      obtain ⟨t, ht, htn⟩ := hinv.run_names n hc
      exact hno t ht htn

theorem schedInv_normal (tasks : List Task) (concurrency : Nat) (outcome : String → Bool)
    (hnodup : (tasks.map Task.name).Nodup) (inp : IterInput) (s : PipelineState)
    (hinv : SchedInv tasks concurrency outcome s) :
    SchedInv tasks concurrency outcome (normalStep tasks concurrency outcome inp s) := by
  rw [normalStep]
  apply schedInv_finish
  apply schedInv_admit tasks concurrency outcome hnodup s hinv
  · exact pySlice_sublist _ _
  · have hrl := hinv.run_le
    have hnn : (0 : Int) ≤ (concurrency : Int) - (s.running.length : Int) := by
      omega
    have := pySlice_length_le (readyTasks tasks s)
      ((concurrency : Int) - (s.running.length : Int)) hnn
    have htn : ((concurrency : Int) - (s.running.length : Int)).toNat =
        concurrency - s.running.length := by
      omega
    omega

theorem schedInv_step (tasks : List Task) (concurrency : Nat) (outcome : String → Bool)
    (hnodup : (tasks.map Task.name).Nodup) (inp : IterInput) (s : PipelineState)
    (hinv : SchedInv tasks concurrency outcome s) :
    SchedInv tasks concurrency outcome
      ((pipelineStep tasks concurrency outcome inp s).state) := by
  rw [pipelineStep]
  by_cases hstop : inp.stopFlag
  · rw [if_pos hstop]
    exact schedInv_cancel tasks concurrency outcome s _ hinv
  · rw [if_neg hstop]
    have hn := schedInv_normal tasks concurrency outcome hnodup inp s hinv
    by_cases hbr : (normalStep tasks concurrency outcome inp s).running.isEmpty &&
        (readyTasks tasks s).isEmpty
    · simpa [hbr, StepResult.state] using hn
    · simpa [hbr, StepResult.state] using hn

theorem schedInv_trace (tasks : List Task) (concurrency : Nat) (outcome : String → Bool)
    (sched : Nat → IterInput) (useDb : Bool)
    (hnodup : (tasks.map Task.name).Nodup) :
    ∀ k, SchedInv tasks concurrency outcome
      (runTrace tasks concurrency outcome sched useDb k).1 := by
  intro k
  induction k with
  | zero => exact schedInv_init tasks concurrency outcome useDb
  | succ k ih =>
    rw [runTrace]
    rcases htr : runTrace tasks concurrency outcome sched useDb k with ⟨s, e⟩
    rw [htr] at ih
    match e with
    | some e0 => exact ih
    | none =>
      have := schedInv_step tasks concurrency outcome hnodup (sched k) s ih
      rcases hst : pipelineStep tasks concurrency outcome (sched k) s with ⟨s2, e2⟩ | s2
      · rw [hst] at this
        simp only [hst]
        exact this
      · rw [hst] at this
        simp only [hst]
        exact this

theorem nodup_subset_length_le (l1 l2 : List String) (h1 : l1.Nodup) (h2 : l1 ⊆ l2) :
    l1.length ≤ l2.length := by
  classical
  calc l1.length = l1.toFinset.card := by rw [List.card_toFinset, h1.dedup]
    _ ≤ l2.toFinset.card := Finset.card_le_card (by
        intro x hx
        simp only [List.mem_toFinset] at hx ⊢
        exact h2 hx)
    _ ≤ l2.length := l2.toFinset_card_le

/-- C9: at every point of every run at most concurrency tasks are Running: the
running dict never exceeds the limit, the set of task definitions whose status is
Running is bounded by it, the iteration about to run admits at most
concurrency − running tasks, and the worker pool is created with exactly concurrency
max workers. -/
theorem C9_concurrency_bound (tasks : List Task) (concurrency : Nat)
    (outcome : String → Bool) (sched : Nat → IterInput) (useDb : Bool)
    (hnodup : (tasks.map Task.name).Nodup) (k : Nat) :
    ((runTrace tasks concurrency outcome sched useDb k).1.running.length ≤ concurrency) ∧
    ((tasks.filter (fun t =>
        (runTrace tasks concurrency outcome sched useDb k).1.status t.name ==
          TaskStatus.RUNNING)).length ≤ concurrency) ∧
    ((pySlice (readyTasks tasks (runTrace tasks concurrency outcome sched useDb k).1)
        ((concurrency : Int) -
          ((runTrace tasks concurrency outcome sched useDb k).1.running.length : Int))).length
      ≤ concurrency - (runTrace tasks concurrency outcome sched useDb k).1.running.length) ∧
    executor_max_workers concurrency = concurrency := by
  have hinv := schedInv_trace tasks concurrency outcome sched useDb hnodup k
  refine ⟨hinv.run_le, ?_, ?_, rfl⟩
  · set s := (runTrace tasks concurrency outcome sched useDb k).1 with hs
    have hsub : ((tasks.filter (fun t => s.status t.name == TaskStatus.RUNNING)).map
        Task.name) ⊆ s.running := by
      intro n hn
      obtain ⟨t, ht, htn⟩ := List.mem_map.mp hn
      have hrun : s.status t.name = TaskStatus.RUNNING := by
        simpa using (List.mem_filter.mp ht).2
      exact htn ▸ hinv.run_back t.name hrun
    have hnd : ((tasks.filter (fun t => s.status t.name == TaskStatus.RUNNING)).map
        Task.name).Nodup :=
      hnodup.sublist ((List.filter_sublist tasks).map Task.name)
    have := nodup_subset_length_le _ _ hnd hsub
    rw [List.length_map] at this
    exact le_trans this hinv.run_le
  · have hrl := hinv.run_le
    set s := (runTrace tasks concurrency outcome sched useDb k).1 with hs
    have hnn : (0 : Int) ≤ (concurrency : Int) - (s.running.length : Int) := by omega
    have h1 := pySlice_length_le (readyTasks tasks s)
      ((concurrency : Int) - (s.running.length : Int)) hnn
    omega

theorem lookupTask_of_mem (tasks : List Task) (hnodup : (tasks.map Task.name).Nodup)
    (t : Task) (ht : t ∈ tasks) : lookupTask tasks t.name = some t := by
  rw [lookupTask]
  rcases hf : tasks.find? (fun u => u.name == t.name) with _ | u
  · rw [List.find?_eq_none] at hf
    exact absurd (by simp) (hf t ht)
  · have hu := List.mem_of_find?_eq_some hf
    have hun : u.name = t.name := by simpa using List.find?_some hf
    rw [hf, eq_of_name_eq hnodup hu ht hun]

theorem needsOf_of_mem (tasks : List Task) (hnodup : (tasks.map Task.name).Nodup)
    (t : Task) (ht : t ∈ tasks) : needsOf tasks t.name = t.needs := by
  rw [needsOf, lookupTask_of_mem tasks hnodup t ht]
  rfl

theorem step_admission_needs (tasks : List Task) (concurrency : Nat)
    (outcome : String → Bool) (hnodup : (tasks.map Task.name).Nodup)
    (inp : IterInput) (s : PipelineState)
    (hinv : SchedInv tasks concurrency outcome s) (t : Task) (ht : t ∈ tasks)
    (h1 : s.status t.name = TaskStatus.PENDING)
    (h2 : ((pipelineStep tasks concurrency outcome inp s).state).status t.name =
      TaskStatus.RUNNING) :
    ∀ d ∈ t.needs, s.status d = TaskStatus.DONE ∧ d ∈ s.completed := by
  rw [pipelineStep] at h2
  by_cases hstop : inp.stopFlag
  · rw [if_pos hstop] at h2
    simp only [StepResult.state, cancel_running_tasks, setStatuses] at h2
    by_cases hc : s.running.contains t.name
    · rw [if_pos hc] at h2
      cases h2
    · rw [if_neg hc] at h2
      rw [h1] at h2
      cases h2
  · rw [if_neg hstop] at h2
    have h2s : (normalStep tasks concurrency outcome inp s).status t.name =
        TaskStatus.RUNNING := by
      by_cases hbr : (normalStep tasks concurrency outcome inp s).running.isEmpty &&
          (readyTasks tasks s).isEmpty
      · simpa [hbr, StepResult.state] using h2
      · simpa [hbr, StepResult.state] using h2
    rw [normalStep] at h2s
    set adm := pySlice (readyTasks tasks s)
      ((concurrency : Int) - (s.running.length : Int)) with hadm
    simp only [finishProcessing, admitState, setStatuses] at h2s
    set s1run := s.running ++ adm.map Task.name with hs1run
    by_cases hd : (s1run.filter (fun n => inp.finished.contains n)).contains t.name
    · rw [if_pos hd] at h2s
      split at h2s <;> cases h2s
    · rw [if_neg hd] at h2s
      by_cases hc : (adm.map Task.name).contains t.name
      · obtain ⟨u, hu, hun⟩ := List.mem_map.mp ((contains_eq_true_iff _ _).mp hc)
        have hready := (mem_readyTasks tasks s u).mp ((pySlice_sublist _ _).subset hu)
        have hut : u = t := eq_of_name_eq hnodup hready.1 ht hun
        subst hut
        intro d hdneed
        exact ⟨hinv.comp_status d (hready.2.2.1 d hdneed), hready.2.2.1 d hdneed⟩
      · rw [if_neg hc] at h2s
        rw [h1] at h2s
        cases h2s

/-- C3: in every run a task transitions from Pending to Running only when every task
named in its needs list already has status Done and is in the completed set; and the
completed set only ever receives names of tasks whose execution outcome was success. -/
theorem C3_running_requires_done_needs (tasks : List Task) (concurrency : Nat)
    (outcome : String → Bool) (sched : Nat → IterInput) (useDb : Bool)
    (hnodup : (tasks.map Task.name).Nodup) (t : Task) (ht : t ∈ tasks) (k : Nat) :
    (((runTrace tasks concurrency outcome sched useDb k).1.status t.name =
        TaskStatus.PENDING) →
     ((runTrace tasks concurrency outcome sched useDb (k + 1)).1.status t.name =
        TaskStatus.RUNNING) →
     ∀ d ∈ t.needs,
       (runTrace tasks concurrency outcome sched useDb k).1.status d =
         TaskStatus.DONE ∧
       d ∈ (runTrace tasks concurrency outcome sched useDb k).1.completed) ∧
    (∀ n ∈ (runTrace tasks concurrency outcome sched useDb k).1.completed,
      outcome n = true) := by
  have hinv := schedInv_trace tasks concurrency outcome sched useDb hnodup k
  constructor
  · intro h1 h2 d hd
    rw [runTrace] at h2
    rcases htr : runTrace tasks concurrency outcome sched useDb k with ⟨s, e⟩
    rw [htr] at h1 h2 hinv
    simp only at h1 hinv
    match e with
    | some e0 =>
      simp only at h2
      rw [h1] at h2
      cases h2
    | none =>
      have h2s : ((pipelineStep tasks concurrency outcome (sched k) s).state).status
          t.name = TaskStatus.RUNNING := by
        rcases hst : pipelineStep tasks concurrency outcome (sched k) s with ⟨s2, e2⟩ | s2
        · simp only [hst] at h2
          simpa [StepResult.state] using h2
        · simp only [hst] at h2
          simpa [StepResult.state] using h2
      exact step_admission_needs tasks concurrency outcome hnodup (sched k) s hinv t ht
        h1 h2s d hd
  · exact hinv.comp_outcome

theorem completed_closed (tasks : List Task) (concurrency : Nat)
    (outcome : String → Bool) (hnodup : (tasks.map Task.name).Nodup)
    (s : PipelineState) (hinv : SchedInv tasks concurrency outcome s) :
    ∀ x y, Relation.ReflTransGen (Step tasks) x y → x ∈ s.completed →
      y ∈ s.completed := by
  intro x y hr
  induction hr with
  | refl => exact id
  | @tail b c _h1 h2 ih =>
    intro hx
    have hb := ih hx
    obtain ⟨t, ht, htn⟩ := hinv.comp_names b hb
    have hne : s.status t.name ≠ TaskStatus.PENDING := by
      rw [htn, hinv.comp_status b hb]
      intro hc
      cases hc
    have hneeds := hinv.nonpending_needs t ht hne
    rw [Step] at h2
    rw [← htn, needsOf_of_mem tasks hnodup t ht] at h2
    exact hneeds c h2

/-- In TaskRunner._execute_pipeline a task that transitively depends on a failed task
keeps status Pending at every point of the run: it is never admitted, never marked
Done, and also never explicitly marked Error or Cancelled. -/
theorem failed_dependents_pending (tasks : List Task) (concurrency : Nat)
    (outcome : String → Bool) (sched : Nat → IterInput) (useDb : Bool)
    (hnodup : (tasks.map Task.name).Nodup) (k : Nat) (t : Task) (ht : t ∈ tasks)
    (f : String)
    (hdep : Relation.TransGen (Step tasks) t.name f)
    (hf : f ∈ (runTrace tasks concurrency outcome sched useDb k).1.failed) :
    (runTrace tasks concurrency outcome sched useDb k).1.status t.name =
      TaskStatus.PENDING := by
  have hinv := schedInv_trace tasks concurrency outcome sched useDb hnodup k
  set s := (runTrace tasks concurrency outcome sched useDb k).1 with hs
  by_contra hne
  obtain ⟨w, hw, hwr⟩ := Relation.TransGen.head'_iff.mp hdep
  rw [Step, needsOf_of_mem tasks hnodup t ht] at hw
  have hwc : w ∈ s.completed := hinv.nonpending_needs t ht hne w hw
  have hfc : f ∈ s.completed :=
    completed_closed tasks concurrency outcome hnodup s hinv w f hwr hwc
  have h1 := hinv.comp_status f hfc
  have h2 := hinv.fail_status f hf
  rw [h1] at h2
  cases h2

theorem runTrace_freeze (tasks : List Task) (concurrency : Nat)
    (outcome : String → Bool) (sched : Nat → IterInput) (useDb : Bool) (k : Nat)
    (e : LoopExit)
    (hk : (runTrace tasks concurrency outcome sched useDb k).2 = some e) :
    ∀ m, runTrace tasks concurrency outcome sched useDb (k + m) =
      runTrace tasks concurrency outcome sched useDb k := by
  intro m
  induction m with
  | zero => rfl
  | succ m ih =>
    have : k + (m + 1) = (k + m) + 1 := by omega
    rw [this, runTrace, ih]
    rcases htr : runTrace tasks concurrency outcome sched useDb k with ⟨s, e2⟩
    rw [htr] at hk
    simp only at hk
    subst hk
    rfl

theorem runTrace_stop_step (tasks : List Task) (concurrency : Nat)
    (outcome : String → Bool) (sched : Nat → IterInput) (useDb : Bool) (k : Nat)
    (hk : (runTrace tasks concurrency outcome sched useDb k).2 = none)
    (hstop : (sched k).stopFlag = true) :
    runTrace tasks concurrency outcome sched useDb (k + 1) =
      (cancel_running_tasks
        { (runTrace tasks concurrency outcome sched useDb k).1 with
          useDatabase :=
            (runTrace tasks concurrency outcome sched useDb k).1.useDatabase &&
              (sched k).dbOk },
       some LoopExit.stopped) := by
  rw [runTrace]
  rcases htr : runTrace tasks concurrency outcome sched useDb k with ⟨s, e⟩
  rw [htr] at hk
  simp only at hk
  subst hk
  simp only [pipelineStep, if_pos hstop]

/-- C2 (amended): when the scheduler observes the stop flag at an iteration, the loop
exits immediately with the stopped tag, every task in the running dict transitions to
Cancelled, every other status is untouched, no task is admitted in that iteration or
ever after (the sets and the running dict are frozen from that point on); but the
final run status computed by TaskRunner.run is Done when no task failed and Error
otherwise, never RunStatus.CANCELLED. -/
theorem C2_stop_cancels_active_but_status_done (tasks : List Task) (concurrency : Nat)
    (outcome : String → Bool) (sched : Nat → IterInput) (useDb : Bool) (k : Nat)
    (hk : (runTrace tasks concurrency outcome sched useDb k).2 = none)
    (hstop : (sched k).stopFlag = true) :
    ((runTrace tasks concurrency outcome sched useDb (k + 1)).2 =
      some LoopExit.stopped) ∧
    (∀ n ∈ (runTrace tasks concurrency outcome sched useDb k).1.running,
      (runTrace tasks concurrency outcome sched useDb (k + 1)).1.status n =
        TaskStatus.CANCELLED) ∧
    (∀ n, n ∉ (runTrace tasks concurrency outcome sched useDb k).1.running →
      (runTrace tasks concurrency outcome sched useDb (k + 1)).1.status n =
        (runTrace tasks concurrency outcome sched useDb k).1.status n) ∧
    ((runTrace tasks concurrency outcome sched useDb (k + 1)).1.completed =
      (runTrace tasks concurrency outcome sched useDb k).1.completed) ∧
    ((runTrace tasks concurrency outcome sched useDb (k + 1)).1.failed =
      (runTrace tasks concurrency outcome sched useDb k).1.failed) ∧
    ((runTrace tasks concurrency outcome sched useDb (k + 1)).1.running =
      (runTrace tasks concurrency outcome sched useDb k).1.running) ∧
    (∀ m, runTrace tasks concurrency outcome sched useDb (k + 1 + m) =
      runTrace tasks concurrency outcome sched useDb (k + 1)) ∧
    ((runVerdict (runTrace tasks concurrency outcome sched useDb (k + 1)).1).2 ≠
      RunStatus.CANCELLED) := by
  have hstep := runTrace_stop_step tasks concurrency outcome sched useDb k hk hstop
  rw [hstep]
  refine ⟨rfl, ?_, ?_, rfl, rfl, rfl, ?_, ?_⟩
  · intro n hn
    simp only [cancel_running_tasks, setStatuses]
    rw [if_pos (by rw [contains_eq_true_iff]; exact hn)]
  · intro n hn
    simp only [cancel_running_tasks, setStatuses]
    rw [if_neg (by rw [contains_eq_true_iff]; exact hn)]
  · intro m
    have := runTrace_freeze tasks concurrency outcome sched useDb (k + 1)
      LoopExit.stopped (by rw [hstep]) m
    rw [hstep] at this
    exact this
  · rw [runVerdict]
    by_cases hf : (cancel_running_tasks
        { (runTrace tasks concurrency outcome sched useDb k).1 with
          useDatabase :=
            (runTrace tasks concurrency outcome sched useDb k).1.useDatabase &&
              (sched k).dbOk }).failed.isEmpty
    · simp only [hf]
      intro hc
      cases hc
    · simp only [hf]
      intro hc
      cases hc

/-- The three-task pipeline driving the scheduler counterexamples: a has no
dependencies, b needs a, c has no dependencies. -/
def exTasks : List Task :=
  [⟨"a", "", "shell", []⟩, ⟨"b", "", "shell", ["a"]⟩, ⟨"c", "", "shell", []⟩]

/-- Schedule for the C2 counterexample: iteration 0 runs normally with no finished
future, iteration 1 observes the stop flag. -/
def c2Sched : Nat → IterInput :=
  fun i => if i = 1 then ⟨true, [], true⟩ else ⟨false, [], true⟩

/-- C2 (counterexample): stopping a run whose active tasks have not failed leaves the
failed set empty, so TaskRunner.run computes success and the final run status Done,
not Cancelled: the run's final status after an observed cancellation signal is not
Cancelled as the claim requires, even though the active task itself was transitioned
to Cancelled. -/
theorem C2_final_status_not_cancelled :
    ((runTrace exTasks 2 (fun _ => true) c2Sched true 2).2 = some LoopExit.stopped) ∧
    ((runTrace exTasks 2 (fun _ => true) c2Sched true 2).1.status "a" =
      TaskStatus.CANCELLED) ∧
    ((runVerdict (runTrace exTasks 2 (fun _ => true) c2Sched true 2).1).2 =
      RunStatus.DONE) ∧
    ((runVerdict (runTrace exTasks 2 (fun _ => true) c2Sched true 2).1).1 = true) := by
  refine ⟨by decide, by decide, by decide, by decide⟩

/-- C2 (witness): the amended stop theorem applied at the concrete stopped run. -/
theorem C2_stop_cancels_active_but_status_done_witness :
    ((runTrace exTasks 2 (fun _ => true) c2Sched true 2).2 = some LoopExit.stopped) ∧
    ((runTrace exTasks 2 (fun _ => true) c2Sched true 2).1.status "a" =
      TaskStatus.CANCELLED) ∧
    ((runVerdict (runTrace exTasks 2 (fun _ => true) c2Sched true 2).1).2 ≠
      RunStatus.CANCELLED) := by
  have h := C2_stop_cancels_active_but_status_done exTasks 2 (fun _ => true) c2Sched
    true 1 (by decide) (by decide)
  exact ⟨h.1, h.2.1 "a" (by decide), h.2.2.2.2.2.2.2⟩

theorem filterTasks_nodup (tasks : List Task) (task_filter : List String)
    (hnodup : (tasks.map Task.name).Nodup) :
    ((filterTasks tasks task_filter).map Task.name).Nodup :=
  hnodup.sublist ((List.filter_sublist tasks).map Task.name)

/-- C10 (amended): when the task filter retains a task t but excludes one of its
dependencies, t never becomes ready during the whole run of the filtered pipeline: it
keeps status Pending at every iteration, is never admitted into the running dict and
never reaches the completed or failed set; and because only the failed set feeds the
verdict, whenever the failed set is empty TaskRunner.run still reports success with
final status Done despite the forever-Pending task. -/
theorem C10_filtered_dependency_blocks_pending (tasks : List Task)
    (task_filter : List String) (concurrency : Nat) (outcome : String → Bool)
    (sched : Nat → IterInput) (useDb : Bool)
    (hnodup : (tasks.map Task.name).Nodup) (t : Task)
    (ht : t ∈ filterTasks tasks task_filter) (d : String) (hd : d ∈ t.needs)
    (hdout : d ∉ task_filter) (k : Nat) :
    ((runTrace (filterTasks tasks task_filter) concurrency outcome sched useDb k).1.status
        t.name = TaskStatus.PENDING) ∧
    (t.name ∉
      (runTrace (filterTasks tasks task_filter) concurrency outcome sched useDb k).1.running) ∧
    (t.name ∉
      (runTrace (filterTasks tasks task_filter) concurrency outcome sched useDb k).1.completed) ∧
    (t.name ∉
      (runTrace (filterTasks tasks task_filter) concurrency outcome sched useDb k).1.failed) ∧
    ((runTrace (filterTasks tasks task_filter) concurrency outcome sched useDb k).1.failed = [] →
      runVerdict
        (runTrace (filterTasks tasks task_filter) concurrency outcome sched useDb k).1 =
        (true, RunStatus.DONE)) := by
  have hfn := filterTasks_nodup tasks task_filter hnodup
  have hinv := schedInv_trace (filterTasks tasks task_filter) concurrency outcome
    sched useDb hfn k
  set s := (runTrace (filterTasks tasks task_filter) concurrency outcome sched useDb k).1
    with hs
  have hpend : s.status t.name = TaskStatus.PENDING := by
    by_contra hne
    have hdc : d ∈ s.completed := hinv.nonpending_needs t ht hne d hd
    obtain ⟨u, hu, hun⟩ := hinv.comp_names d hdc
    have : task_filter.contains u.name := by
      simpa using (List.mem_filter.mp hu).2
    rw [hun] at this
    exact hdout ((contains_eq_true_iff _ _).mp this)
  refine ⟨hpend, ?_, ?_, ?_, ?_⟩
  · intro hc
    rcases hinv.run_fwd t.name hc with h2 | h2 <;> rw [hpend] at h2 <;> cases h2
  · intro hc
    have := hinv.comp_status t.name hc
    rw [hpend] at this
    cases this
  · intro hc
    have := hinv.fail_status t.name hc
    rw [hpend] at this
    cases this
  · intro hf
    rw [runVerdict, hf]
    rfl

/-- Schedule for the C10 counterexample and the C3 witness: the future of c finishes
during iteration 0, that of b during iteration 2. -/
def c10Sched : Nat → IterInput :=
  fun i => if i = 0 then ⟨false, ["c"], true⟩ else ⟨false, ["b"], true⟩

/-- Outcome for the C10 counterexample: task c fails, everything else succeeds. -/
def c10Outcome : String → Bool := fun n => !(n == "c")

/-- C10 (counterexample): run with a task filter that retains b (whose dependency a is
excluded) together with the failing task c.  The loop drains with b still Pending, but
TaskRunner.run returns False with final status Error because c failed: the claim that
run nevertheless returns True with status Done is false as stated. -/
theorem C10_run_not_always_true :
    ("b" ∈ (filterTasks exTasks ["b", "c"]).map Task.name) ∧
    ("a" ∉ ["b", "c"]) ∧
    ((runTrace (filterTasks exTasks ["b", "c"]) 2 c10Outcome c10Sched true 2).2 =
      some LoopExit.drained) ∧
    ((runTrace (filterTasks exTasks ["b", "c"]) 2 c10Outcome c10Sched true 2).1.status
      "b" = TaskStatus.PENDING) ∧
    (runVerdict
      (runTrace (filterTasks exTasks ["b", "c"]) 2 c10Outcome c10Sched true 2).1 =
      (false, RunStatus.ERROR)) := by
  refine ⟨by decide, by decide, by decide, by decide, by decide⟩

/-- Schedule for the C10 witness: the future of c finishes during iteration 0. -/
def c10wSched : Nat → IterInput :=
  fun i => if i = 0 then ⟨false, ["c"], true⟩ else ⟨false, [], true⟩

/-- C10 (witness): the amended theorem applied at a filtered run whose one admitted
task succeeds: b stays Pending throughout, yet the verdict is success with status
Done. -/
theorem C10_filtered_dependency_blocks_pending_witness :
    ((runTrace (filterTasks exTasks ["b", "c"]) 2 (fun _ => true) c10wSched true 2).1.status
      "b" = TaskStatus.PENDING) ∧
    ("b" ∉
      (runTrace (filterTasks exTasks ["b", "c"]) 2 (fun _ => true) c10wSched true 2).1.running) ∧
    (runVerdict
      (runTrace (filterTasks exTasks ["b", "c"]) 2 (fun _ => true) c10wSched true 2).1 =
      (true, RunStatus.DONE)) := by
  have h := C10_filtered_dependency_blocks_pending exTasks ["b", "c"] 2
    (fun _ => true) c10wSched true (by decide) ⟨"b", "", "shell", ["a"]⟩ (by decide)
    "a" (by decide) (by decide) 2
  exact ⟨h.1, h.2.1, h.2.2.2.2 (by decide)⟩

/-- Schedule for the C3 and C9 witnesses: the future of a finishes during iteration 0,
so b is admitted at iteration 1. -/
def c3Sched : Nat → IterInput :=
  fun i => if i = 0 then ⟨false, ["a"], true⟩ else ⟨false, [], true⟩

/-- C3 (witness): the claim theorem applied at a concrete run at the iteration where b
transitions from Pending to Running: its dependency a is already Done and in the
completed set. -/
theorem C3_running_requires_done_needs_witness :
    ((runTrace exTasks 2 (fun _ => true) c3Sched true 1).1.status "a" =
      TaskStatus.DONE) ∧
    ("a" ∈ (runTrace exTasks 2 (fun _ => true) c3Sched true 1).1.completed) := by
  have h := C3_running_requires_done_needs exTasks 2 (fun _ => true) c3Sched true
    (by decide) ⟨"b", "", "shell", ["a"]⟩ (by decide) 1
  exact h.1 (by decide) (by decide) "a" (by decide)

/-- C9 (witness): the bound theorem applied at a concrete run and iteration. -/
theorem C9_concurrency_bound_witness :
    ((runTrace exTasks 2 (fun _ => true) c3Sched true 1).1.running.length ≤ 2) ∧
    executor_max_workers 2 = 2 := by
  have h := C9_concurrency_bound exTasks 2 (fun _ => true) c3Sched true (by decide) 1
  exact ⟨h.1, h.2.2.2⟩

/-- Model of TaskRunner._safe_db_call (runner.py lines 89-99): with the database
enabled, a successful operation returns its value and keeps use_database; a failing
operation (op = none, standing for a raised exception) is caught, logged, clears
use_database and yields None; with the database disabled nothing is attempted.  The
function is total, so no database exception ever propagates into the scheduler loop. -/
def safe_db_call {α : Type} (useDatabase : Bool) (op : Option α) : Option α × Bool :=
  if useDatabase then
    match op with
    | some v => (some v, true)
    | none => (none, false)
  else (none, useDatabase)

/-- Model of the database setup in TaskRunner.__init__ (runner.py lines 63-71): a
failing init_db (ok = false) is caught and clears use_database, and the runner keeps
constructing itself. -/
def init_use_database (requested dbInitOk : Bool) : Bool := requested && dbInitOk

/-- The progress snapshot fields consulted by the claims, from _update_progress
(runner.py lines 622-682): the done count and the current task name. -/
structure Progress where
  done : Nat
  current_task : Option String
deriving DecidableEq, Repr

/-- Model of _update_progress (runner.py lines 629-645): with the database available
and a non-empty task dict, counts are derived from task statuses; otherwise they come
from the in-memory completed set, and the current task is the first member of the
running set. -/
def update_progress (tasks : List Task) (s : PipelineState) : Progress :=
  if s.useDatabase && !(tasks.isEmpty) then
    ⟨(tasks.filter (fun t => s.status t.name == TaskStatus.DONE)).length,
     (tasks.find? (fun t => s.status t.name == TaskStatus.RUNNING)).map Task.name⟩
  else
    ⟨s.completed.length, s.running.head?⟩

/-- Equality of the scheduler-relevant state components, everything except the
use_database flag. -/
def coreEq (s1 s2 : PipelineState) : Prop :=
  s1.status = s2.status ∧ s1.completed = s2.completed ∧ s1.failed = s2.failed ∧
    s1.running = s2.running

theorem readyTasks_coreEq (tasks : List Task) (s1 s2 : PipelineState)
    (h : coreEq s1 s2) : readyTasks tasks s1 = readyTasks tasks s2 := by
  obtain ⟨h1, h2, _h3, h4⟩ := h
  rw [readyTasks, readyTasks]
  simp only [h1, h2, h4]

theorem admitState_coreEq (s1 s2 : PipelineState) (adm : List Task)
    (h : coreEq s1 s2) : coreEq (admitState s1 adm) (admitState s2 adm) := by
  obtain ⟨h1, h2, h3, h4⟩ := h
  exact ⟨by simp only [admitState, h1, h4], by simp only [admitState, h2],
    by simp only [admitState, h3], by simp only [admitState, h4]⟩

theorem finishProcessing_coreEq (outcome : String → Bool) (fin1 fin2 : List String)
    (db1 db2 : Bool) (hfin : fin1 = fin2) (s1 s2 : PipelineState) (h : coreEq s1 s2) :
    coreEq (finishProcessing outcome fin1 db1 s1) (finishProcessing outcome fin2 db2 s2) := by
  subst hfin
  obtain ⟨h1, h2, h3, h4⟩ := h
  exact ⟨by simp only [finishProcessing, h1, h4], by simp only [finishProcessing, h2, h4],
    by simp only [finishProcessing, h3, h4], by simp only [finishProcessing, h4]⟩

theorem normalStep_coreEq (tasks : List Task) (concurrency : Nat)
    (outcome : String → Bool) (inp1 inp2 : IterInput)
    (hfin : inp1.finished = inp2.finished) (s1 s2 : PipelineState) (h : coreEq s1 s2) :
    coreEq (normalStep tasks concurrency outcome inp1 s1)
      (normalStep tasks concurrency outcome inp2 s2) := by
  rw [normalStep, normalStep, readyTasks_coreEq tasks s1 s2 h, h.2.2.2]
  exact finishProcessing_coreEq outcome _ _ _ _ hfin _ _
    (admitState_coreEq s1 s2 _ h)

theorem pipelineStep_db_independent (tasks : List Task) (concurrency : Nat)
    (outcome : String → Bool) (inp1 inp2 : IterInput)
    (hstop : inp1.stopFlag = inp2.stopFlag) (hfin : inp1.finished = inp2.finished)
    (s1 s2 : PipelineState) (h : coreEq s1 s2) :
    coreEq ((pipelineStep tasks concurrency outcome inp1 s1).state)
        ((pipelineStep tasks concurrency outcome inp2 s2).state) ∧
    (pipelineStep tasks concurrency outcome inp1 s1).exitTag =
      (pipelineStep tasks concurrency outcome inp2 s2).exitTag := by
  by_cases hs : inp1.stopFlag
  · have hs2 : inp2.stopFlag = true := hstop ▸ hs
    rw [pipelineStep, pipelineStep, if_pos hs, if_pos hs2]
    obtain ⟨h1, h2, h3, h4⟩ := h
    exact ⟨⟨by simp only [StepResult.state, cancel_running_tasks, setStatuses, h1, h4],
      by simp only [StepResult.state, cancel_running_tasks, h2],
      by simp only [StepResult.state, cancel_running_tasks, h3],
      by simp only [StepResult.state, cancel_running_tasks, h4]⟩, rfl⟩
  · have hs2 : ¬inp2.stopFlag = true := by
      rw [← hstop]
      exact hs
    simp only [pipelineStep, if_neg hs, if_neg hs2]
    have hcore2 := normalStep_coreEq tasks concurrency outcome inp1 inp2 hfin s1 s2 h
    have hcond : ((normalStep tasks concurrency outcome inp1 s1).running.isEmpty &&
        (readyTasks tasks s1).isEmpty) =
        ((normalStep tasks concurrency outcome inp2 s2).running.isEmpty &&
        (readyTasks tasks s2).isEmpty) := by
      rw [readyTasks_coreEq tasks s1 s2 h, hcore2.2.2.2]
    by_cases hbr : ((normalStep tasks concurrency outcome inp1 s1).running.isEmpty &&
        (readyTasks tasks s1).isEmpty) = true
    · rw [if_pos hbr, if_pos (hcond ▸ hbr)]
      exact ⟨hcore2, rfl⟩
    · rw [if_neg hbr, if_neg (hcond ▸ hbr)]
      exact ⟨hcore2, rfl⟩

theorem runTrace_db_independent (tasks : List Task) (concurrency : Nat)
    (outcome : String → Bool) (sched1 sched2 : Nat → IterInput) (u1 u2 : Bool)
    (hs : ∀ i, (sched1 i).stopFlag = (sched2 i).stopFlag ∧
      (sched1 i).finished = (sched2 i).finished) :
    ∀ k, coreEq (runTrace tasks concurrency outcome sched1 u1 k).1
        (runTrace tasks concurrency outcome sched2 u2 k).1 ∧
      (runTrace tasks concurrency outcome sched1 u1 k).2 =
        (runTrace tasks concurrency outcome sched2 u2 k).2 := by
  intro k
  induction k with
  | zero => exact ⟨⟨rfl, rfl, rfl, rfl⟩, rfl⟩
  | succ k ih =>
    obtain ⟨ihc, ihe⟩ := ih
    rw [runTrace, runTrace]
    rcases h1 : runTrace tasks concurrency outcome sched1 u1 k with ⟨a1, e1⟩
    rcases h2 : runTrace tasks concurrency outcome sched2 u2 k with ⟨a2, e2⟩
    rw [h1, h2] at ihc ihe
    simp only at ihc ihe
    subst ihe
    match e1 with
    | some e0 => exact ⟨ihc, rfl⟩
    | none =>
      have hst := pipelineStep_db_independent tasks concurrency outcome (sched1 k)
        (sched2 k) (hs k).1 (hs k).2 a1 a2 ihc
      rcases hp1 : pipelineStep tasks concurrency outcome (sched1 k) a1 with ⟨b1, f1⟩ | b1 <;>
        rcases hp2 : pipelineStep tasks concurrency outcome (sched2 k) a2 with ⟨b2, f2⟩ | b2 <;>
        rw [hp1, hp2] at hst <;> simp only [hp1, hp2]
      · obtain ⟨hc, he⟩ := hst
        simp only [StepResult.exitTag] at he
        injection he with he
        subst he
        exact ⟨hc, rfl⟩
      · obtain ⟨_, he⟩ := hst
        simp only [StepResult.exitTag] at he
        cases he
      · obtain ⟨_, he⟩ := hst
        simp only [StepResult.exitTag] at he
        cases he
      · obtain ⟨hc, _⟩ := hst
        exact ⟨hc, trivial⟩

/-- C7: database failures never abort a run.  A failing init_db clears use_database at
construction; _safe_db_call is a total function that flips use_database off and
returns None on a failing operation, passing values through on success; the entire
scheduler trace (statuses, completed and failed sets, running dict, loop exits, and
hence the final verdict) is identical under any pattern of database availability; and
once use_database is off the progress snapshot is computed from the scheduler's own
completed and running sets. -/
theorem C7_db_failure_degrades_gracefully (α : Type) (v : α) (requested : Bool)
    (tasks : List Task) (concurrency : Nat) (outcome : String → Bool)
    (sched1 sched2 : Nat → IterInput) (u1 u2 : Bool)
    (hs : ∀ i, (sched1 i).stopFlag = (sched2 i).stopFlag ∧
      (sched1 i).finished = (sched2 i).finished) (k : Nat) (s : PipelineState)
    (hnodb : s.useDatabase = false) :
    (init_use_database requested false = false) ∧
    (safe_db_call (α := α) true none = (none, false)) ∧
    (safe_db_call true (some v) = (some v, true)) ∧
    (safe_db_call (α := α) false none = (none, false)) ∧
    coreEq (runTrace tasks concurrency outcome sched1 u1 k).1
      (runTrace tasks concurrency outcome sched2 u2 k).1 ∧
    ((runTrace tasks concurrency outcome sched1 u1 k).2 =
      (runTrace tasks concurrency outcome sched2 u2 k).2) ∧
    (runVerdict (runTrace tasks concurrency outcome sched1 u1 k).1 =
      runVerdict (runTrace tasks concurrency outcome sched2 u2 k).1) ∧
    (update_progress tasks s = ⟨s.completed.length, s.running.head?⟩) := by
  have hind := runTrace_db_independent tasks concurrency outcome sched1 sched2 u1 u2 hs k
  refine ⟨by simp [init_use_database], rfl, rfl, rfl, hind.1, hind.2, ?_, ?_⟩
  · rw [runVerdict, runVerdict, hind.1.2.2.1]
  · rw [update_progress, hnodb]
    simp

/-- Schedule for the C7 witness: same stop flags and finished futures as c3Sched but
with every database call failing. -/
def c7Sched : Nat → IterInput :=
  fun i => if i = 0 then ⟨false, ["a"], false⟩ else ⟨false, [], false⟩

/-- C7 (witness): the theorem applied at a concrete run: with the database failing at
every call the verdict matches the fully-working-database run, and the final progress
snapshot is sourced from the in-memory sets. -/
theorem C7_db_failure_degrades_gracefully_witness :
    (runVerdict (runTrace exTasks 2 (fun _ => true) c3Sched true 3).1 =
      runVerdict (runTrace exTasks 2 (fun _ => true) c7Sched false 3).1) ∧
    (update_progress exTasks (runTrace exTasks 2 (fun _ => true) c7Sched false 3).1 =
      ⟨(runTrace exTasks 2 (fun _ => true) c7Sched false 3).1.completed.length,
       (runTrace exTasks 2 (fun _ => true) c7Sched false 3).1.running.head?⟩) := by
  have h := C7_db_failure_degrades_gracefully Nat 0 true exTasks 2 (fun _ => true)
    c3Sched c7Sched true false
    (fun i => by by_cases hi : i = 0 <;> simp [c3Sched, c7Sched, hi]) 3
    (runTrace exTasks 2 (fun _ => true) c7Sched false 3).1 (by decide)
  exact ⟨h.2.2.2.2.2.2.1, h.2.2.2.2.2.2.2⟩

/-- The body of the task for-loop of SimpleTaskRunner.run (simple_runner.py lines
277-294) acting on ((completed, failed), progress_made): an already processed task is
skipped; a task whose needs are all completed executes inline (execute_task, lines
114-144, whose shell and internal branches always land the task in exactly one of the
two sets according to the outcome) and sets the progress flag; anything else waits. -/
def simpleRoundF (outcome : String → Bool) :
    (List String × List String) × Bool → Task → (List String × List String) × Bool :=
  fun acc t =>
    if acc.1.1.contains t.name || acc.1.2.contains t.name then acc
    else if t.needs.all (fun d => acc.1.1.contains d) then
      (if outcome t.name then (acc.1.1 ++ [t.name], acc.1.2)
       else (acc.1.1, acc.1.2 ++ [t.name]), true)
    else acc

/-- One full round of the task for-loop of SimpleTaskRunner.run over the pipeline in
definition order. -/
def simpleRound (outcome : String → Bool) (tasks : List Task)
    (init : (List String × List String) × Bool) : (List String × List String) × Bool :=
  tasks.foldl (simpleRoundF outcome) init

/-- The blocked-task marking of SimpleTaskRunner.run (simple_runner.py lines 296-307):
after a round with no progress, every task in neither set with a dependency outside
the completed set is added to the failed set. -/
def markBlocked (tasks : List Task) (cf : List String × List String) :
    List String × List String :=
  (cf.1, cf.2 ++
    ((tasks.filter (fun t => !(cf.1.contains t.name) && !(cf.2.contains t.name))).filter
      (fun t => t.needs.any (fun d => !(cf.1.contains d)))).map Task.name)

/-- The while-loop of SimpleTaskRunner.run (simple_runner.py lines 264-307): fuel
counts the attempts still allowed (max_attempts = 3 * number of tasks, line 264);
stopAt models the stop-flag check at the top of each attempt (line 271); a round with
no progress marks the blocked tasks failed and breaks. -/
def simpleRunLoop (outcome : String → Bool) (tasks : List Task) (stopAt : Nat → Bool) :
    Nat → Nat → List String × List String → List String × List String
  | _, 0, cf => cf
  | attempt, fuel + 1, cf =>
    if cf.1.length + cf.2.length < tasks.length then
      if stopAt attempt then cf
      else
        let res := simpleRound outcome tasks (cf, false)
        if res.2 then simpleRunLoop outcome tasks stopAt (attempt + 1) fuel res.1
        else markBlocked tasks res.1
    else cf

/-- SimpleTaskRunner.run restricted to its execution loop (simple_runner.py lines
263-307): empty sets, attempt 0, max_attempts = 3 * number of tasks. -/
def simple_run (outcome : String → Bool) (tasks : List Task) (stopAt : Nat → Bool) :
    List String × List String :=
  simpleRunLoop outcome tasks stopAt 0 (3 * tasks.length) ([], [])

theorem simpleRoundF_cases (outcome : String → Bool) (c f : List String) (flag : Bool)
    (t : Task) :
    simpleRoundF outcome ((c, f), flag) t = ((c, f), flag) ∨
    (simpleRoundF outcome ((c, f), flag) t = ((c ++ [t.name], f), true) ∧
      t.name ∉ c ∧ t.name ∉ f ∧ ∀ d ∈ t.needs, d ∈ c) ∨
    (simpleRoundF outcome ((c, f), flag) t = ((c, f ++ [t.name]), true) ∧
      t.name ∉ c ∧ t.name ∉ f ∧ ∀ d ∈ t.needs, d ∈ c) := by
  rw [simpleRoundF]
  by_cases h1 : (c.contains t.name || f.contains t.name) = true
  · rw [if_pos h1]
    exact Or.inl rfl
  · simp only [Bool.or_eq_true, not_or, Bool.not_eq_true] at h1
    rw [if_neg (by rw [h1.1, h1.2]; simp)]
    have hn1 : t.name ∉ c := by
      intro hc
      rw [(contains_eq_true_iff _ _).mpr hc] at h1
      exact absurd h1.1 (by simp)
    have hn2 : t.name ∉ f := by
      intro hc
      rw [(contains_eq_true_iff _ _).mpr hc] at h1
      exact absurd h1.2 (by simp)
    by_cases h2 : (t.needs.all fun d => c.contains d) = true
    · rw [if_pos h2]
      have hneeds : ∀ d ∈ t.needs, d ∈ c := by
        intro d hd
        have := List.all_eq_true.mp h2 d hd
        exact (contains_eq_true_iff _ _).mp this
      by_cases h3 : outcome t.name = true
      · rw [if_pos h3]
        exact Or.inr (Or.inl ⟨rfl, hn1, hn2, hneeds⟩)
      · rw [if_neg h3]
        exact Or.inr (Or.inr ⟨rfl, hn1, hn2, hneeds⟩)
    · rw [if_neg h2]
      exact Or.inl rfl

theorem simpleRound_mono (outcome : String → Bool) :
    ∀ (l : List Task) (c f : List String) (flag : Bool),
      c ⊆ (l.foldl (simpleRoundF outcome) ((c, f), flag)).1.1 ∧
      f ⊆ (l.foldl (simpleRoundF outcome) ((c, f), flag)).1.2 ∧
      (flag = true → (l.foldl (simpleRoundF outcome) ((c, f), flag)).2 = true) := by
  intro l
  induction l with
  | nil => exact fun c f flag => ⟨fun _ h => h, fun _ h => h, fun h => h⟩
  | cons u l ih =>
    intro c f flag
    rw [List.foldl_cons]
    rcases simpleRoundF_cases outcome c f flag u with h | ⟨h, _⟩ | ⟨h, _⟩ <;>
      rw [h]
    · exact ih c f flag
    · obtain ⟨i1, i2, i3⟩ := ih (c ++ [u.name]) f true
      exact ⟨fun x hx => i1 (by simp [hx]), i2, fun _ => i3 rfl⟩
    · obtain ⟨i1, i2, i3⟩ := ih c (f ++ [u.name]) true
      exact ⟨i1, fun x hx => i2 (by simp [hx]), fun _ => i3 rfl⟩

theorem simpleRound_no_progress (outcome : String → Bool) :
    ∀ (l : List Task) (c f : List String),
      (l.foldl (simpleRoundF outcome) ((c, f), false)).2 = false →
      (l.foldl (simpleRoundF outcome) ((c, f), false)).1 = (c, f) := by
  intro l
  induction l with
  | nil => intro c f _; rfl
  | cons u l ih =>
    intro c f hflag
    rw [List.foldl_cons] at hflag ⊢
    rcases simpleRoundF_cases outcome c f false u with h | ⟨h, _⟩ | ⟨h, _⟩ <;>
      rw [h] at hflag ⊢
    · exact ih c f hflag
    · rw [(simpleRound_mono outcome l (c ++ [u.name]) f true).2.2 rfl] at hflag
      cases hflag
    · rw [(simpleRound_mono outcome l c (f ++ [u.name]) true).2.2 rfl] at hflag
      cases hflag

theorem simpleRound_sets (outcome : String → Bool) :
    ∀ (l : List Task) (c f : List String) (flag : Bool),
      c.Nodup → f.Nodup → (∀ x ∈ c, x ∉ f) →
      ((l.foldl (simpleRoundF outcome) ((c, f), flag)).1.1.Nodup ∧
       (l.foldl (simpleRoundF outcome) ((c, f), flag)).1.2.Nodup ∧
       (∀ x ∈ (l.foldl (simpleRoundF outcome) ((c, f), flag)).1.1,
         x ∉ (l.foldl (simpleRoundF outcome) ((c, f), flag)).1.2) ∧
       (∀ x ∈ (l.foldl (simpleRoundF outcome) ((c, f), flag)).1.1,
         x ∈ c ∨ ∃ t ∈ l, t.name = x) ∧
       (∀ x ∈ (l.foldl (simpleRoundF outcome) ((c, f), flag)).1.2,
         x ∈ f ∨ ∃ t ∈ l, t.name = x) ∧
       (c.length + f.length ≤
         (l.foldl (simpleRoundF outcome) ((c, f), flag)).1.1.length +
           (l.foldl (simpleRoundF outcome) ((c, f), flag)).1.2.length) ∧
       (flag = false → (l.foldl (simpleRoundF outcome) ((c, f), flag)).2 = true →
         c.length + f.length + 1 ≤
           (l.foldl (simpleRoundF outcome) ((c, f), flag)).1.1.length +
             (l.foldl (simpleRoundF outcome) ((c, f), flag)).1.2.length)) := by
  intro l
  induction l with
  | nil =>
    intro c f flag hc hf hdisj
    refine ⟨hc, hf, hdisj, fun x hx => Or.inl hx, fun x hx => Or.inl hx, le_refl _, ?_⟩
    intro h1 h2
    rw [List.foldl_nil] at h2
    rw [h1] at h2
    cases h2
  | cons u l ih =>
    intro c f flag hc hf hdisj
    rw [List.foldl_cons]
    rcases simpleRoundF_cases outcome c f flag u with h | ⟨h, hn1, hn2, _⟩ |
      ⟨h, hn1, hn2, _⟩ <;> rw [h]
    · obtain ⟨i1, i2, i3, i4, i5, i6, i7⟩ := ih c f flag hc hf hdisj
      refine ⟨i1, i2, i3, ?_, ?_, i6, i7⟩
      · intro x hx
        rcases i4 x hx with h1 | ⟨t, ht, hh⟩
        · exact Or.inl h1
        · exact Or.inr ⟨t, List.mem_cons_of_mem u ht, hh⟩
      · intro x hx
        rcases i5 x hx with h1 | ⟨t, ht, hh⟩
        · exact Or.inl h1
        · exact Or.inr ⟨t, List.mem_cons_of_mem u ht, hh⟩
    · have hcu : (c ++ [u.name]).Nodup := by
        simp only [List.nodup_append, List.nodup_cons]
        exact ⟨hc, by simp, by simpa using hn1⟩
      have hdis2 : ∀ x ∈ c ++ [u.name], x ∉ f := by
        intro x hx
        rcases List.mem_append.mp hx with h1 | h1
        · exact hdisj x h1
        · rw [List.mem_singleton.mp h1]
          exact hn2
      obtain ⟨i1, i2, i3, i4, i5, i6, i7⟩ := ih (c ++ [u.name]) f true hcu hf hdis2
      refine ⟨i1, i2, i3, ?_, ?_, ?_, ?_⟩
      · intro x hx
        rcases i4 x hx with h1 | ⟨t, ht, hh⟩
        · rcases List.mem_append.mp h1 with h2 | h2
          · exact Or.inl h2
          · exact Or.inr ⟨u, by simp, (List.mem_singleton.mp h2).symm⟩
        · exact Or.inr ⟨t, List.mem_cons_of_mem u ht, hh⟩
      · intro x hx
        rcases i5 x hx with h1 | ⟨t, ht, hh⟩
        · exact Or.inl h1
        · exact Or.inr ⟨t, List.mem_cons_of_mem u ht, hh⟩
      · have := i6
        simp only [List.length_append, List.length_singleton] at this
        omega
      · intro _ _
        have := i6
        simp only [List.length_append, List.length_singleton] at this
        omega
    · have hfu : (f ++ [u.name]).Nodup := by
        simp only [List.nodup_append, List.nodup_cons]
        exact ⟨hf, by simp, by simpa using hn2⟩
      have hdis2 : ∀ x ∈ c, x ∉ f ++ [u.name] := by
        intro x hx hmem
        rcases List.mem_append.mp hmem with h1 | h1
        · exact hdisj x hx h1
        · rw [List.mem_singleton.mp h1] at hx
          exact hn1 hx
      obtain ⟨i1, i2, i3, i4, i5, i6, i7⟩ := ih c (f ++ [u.name]) true hc hfu hdis2
      refine ⟨i1, i2, i3, ?_, ?_, ?_, ?_⟩
      · intro x hx
        rcases i4 x hx with h1 | ⟨t, ht, hh⟩
        · exact Or.inl h1
        · exact Or.inr ⟨t, List.mem_cons_of_mem u ht, hh⟩
      · intro x hx
        rcases i5 x hx with h1 | ⟨t, ht, hh⟩
        · rcases List.mem_append.mp h1 with h2 | h2
          · exact Or.inl h2
          · exact Or.inr ⟨u, by simp, (List.mem_singleton.mp h2).symm⟩
        · exact Or.inr ⟨t, List.mem_cons_of_mem u ht, hh⟩
      · have := i6
        simp only [List.length_append, List.length_singleton] at this
        omega
      · intro _ _
        have := i6
        simp only [List.length_append, List.length_singleton] at this
        omega

theorem simpleRound_closure (outcome : String → Bool) :
    ∀ (l : List Task) (c f : List String) (flag : Bool),
      ∀ x ∈ (l.foldl (simpleRoundF outcome) ((c, f), flag)).1.1,
        x ∈ c ∨ ∃ t ∈ l, t.name = x ∧
          ∀ d ∈ t.needs, d ∈ (l.foldl (simpleRoundF outcome) ((c, f), flag)).1.1 := by
  intro l
  induction l with
  | nil => exact fun c f flag x hx => Or.inl hx
  | cons u l ih =>
    intro c f flag x hx
    rw [List.foldl_cons] at hx ⊢
    rcases simpleRoundF_cases outcome c f flag u with h | ⟨h, _, _, hneeds⟩ |
      ⟨h, _, _, hneeds⟩ <;> rw [h] at hx ⊢
    · rcases ih c f flag x hx with h1 | ⟨t, ht, hh, hcl⟩
      · exact Or.inl h1
      · exact Or.inr ⟨t, List.mem_cons_of_mem u ht, hh, hcl⟩
    · rcases ih (c ++ [u.name]) f true x hx with h1 | ⟨t, ht, hh, hcl⟩
      · rcases List.mem_append.mp h1 with h2 | h2
        · exact Or.inl h2
        · refine Or.inr ⟨u, by simp, (List.mem_singleton.mp h2).symm, ?_⟩
          intro d hd
          have hmono := (simpleRound_mono outcome l (c ++ [u.name]) f true).1
          exact hmono (by simp [hneeds d hd])
      · exact Or.inr ⟨t, List.mem_cons_of_mem u ht, hh, hcl⟩
    · rcases ih c (f ++ [u.name]) true x hx with h1 | ⟨t, ht, hh, hcl⟩
      · exact Or.inl h1
      · exact Or.inr ⟨t, List.mem_cons_of_mem u ht, hh, hcl⟩

theorem simpleRound_ready_executes (outcome : String → Bool) (t0 : Task) :
    ∀ (l : List Task) (c f : List String) (flag : Bool),
      (∀ u ∈ l, u.name = t0.name → u = t0) →
      t0 ∈ l → t0.name ∉ c → t0.name ∉ f → (∀ d ∈ t0.needs, d ∈ c) →
      (l.foldl (simpleRoundF outcome) ((c, f), flag)).2 = true := by
  intro l
  induction l with
  | nil => intro c f flag _ h0; cases h0
  | cons u l ih =>
    intro c f flag hinj ht0 hnc hnf hneeds
    rw [List.foldl_cons]
    by_cases hu : u = t0
    · subst hu
      rcases simpleRoundF_cases outcome c f flag u with h | ⟨h, _⟩ | ⟨h, _⟩
      · have h2 := h
        rw [simpleRoundF] at h2
        rw [if_neg (by
          simp only [Bool.or_eq_true, not_or]
          constructor
          · rw [contains_eq_true_iff]; exact hnc
          · rw [contains_eq_true_iff]; exact hnf)] at h2
        rw [if_pos (by
          rw [List.all_eq_true]
          intro d hd
          rw [contains_eq_true_iff]
          exact hneeds d hd)] at h2
        have hflag : flag = true := by
          by_cases ho : outcome u.name = true
          · rw [if_pos ho] at h2
            have := congrArg Prod.snd h2
            simpa using this.symm
          · rw [if_neg ho] at h2
            have := congrArg Prod.snd h2
            simpa using this.symm
        rw [h]
        exact (simpleRound_mono outcome l c f flag).2.2 hflag
      · rw [h]
        exact (simpleRound_mono outcome l (c ++ [u.name]) f true).2.2 rfl
      · rw [h]
        exact (simpleRound_mono outcome l c (f ++ [u.name]) true).2.2 rfl
    · have hname : u.name ≠ t0.name := fun hc => hu (hinj u (by simp) hc)
      have ht0l : t0 ∈ l := by
        rcases List.mem_cons.mp ht0 with h1 | h1
        · exact absurd h1.symm hu
        · exact h1
      have hinj2 : ∀ v ∈ l, v.name = t0.name → v = t0 :=
        fun v hv => hinj v (List.mem_cons_of_mem u hv)
      rcases simpleRoundF_cases outcome c f flag u with h | ⟨h, _⟩ | ⟨h, _⟩ <;> rw [h]
      · exact ih c f flag hinj2 ht0l hnc hnf hneeds
      · refine ih (c ++ [u.name]) f true hinj2 ht0l ?_ hnf ?_
        · intro hc
          rcases List.mem_append.mp hc with h1 | h1
          · exact hnc h1
          · exact hname (List.mem_singleton.mp h1).symm
        · intro d hd
          simp [hneeds d hd]
      · refine ih c (f ++ [u.name]) true hinj2 ht0l hnc ?_ hneeds
        intro hc
        rcases List.mem_append.mp hc with h1 | h1
        · exact hnf h1
        · exact hname (List.mem_singleton.mp h1).symm

theorem all_names_mem (names l : List String) (_hn : names.Nodup) (hl : l.Nodup)
    (hsub : l ⊆ names) (hlen : names.length ≤ l.length) : ∀ x ∈ names, x ∈ l := by
  classical
  have hsub2 : l.toFinset ⊆ names.toFinset := by
    intro x hx
    simp only [List.mem_toFinset] at hx ⊢
    exact hsub hx
  have hcard : names.toFinset.card ≤ l.toFinset.card := by
    calc names.toFinset.card ≤ names.length := names.toFinset_card_le
      _ ≤ l.length := hlen
      _ = l.toFinset.card := by rw [List.card_toFinset, hl.dedup]
  have heq : l.toFinset = names.toFinset := Finset.eq_of_subset_of_card_le hsub2 hcard
  intro x hx
  have hx2 : x ∈ l.toFinset := by
    rw [heq]
    simpa using hx
  simpa using hx2

theorem simpleRunLoop_marks_all (outcome : String → Bool) (tasks : List Task)
    (hnodup : (tasks.map Task.name).Nodup) :
    ∀ (fuel attempt : Nat) (c f : List String) (r : List String × List String),
      r = simpleRunLoop outcome tasks (fun _ => false) attempt fuel (c, f) →
      c.Nodup → f.Nodup → (∀ x ∈ c, x ∉ f) →
      (∀ x ∈ c, ∃ t ∈ tasks, t.name = x) →
      (∀ x ∈ f, ∃ t ∈ tasks, t.name = x) →
      (∀ x ∈ c, ∃ t ∈ tasks, t.name = x ∧ ∀ d ∈ t.needs, d ∈ c) →
      tasks.length ≤ fuel + c.length + f.length →
      ((∀ t ∈ tasks, t.name ∈ r.1 ∨ t.name ∈ r.2) ∧
       (∀ x ∈ r.1, x ∉ r.2) ∧
       (∀ x ∈ r.1, ∃ t ∈ tasks, t.name = x ∧ ∀ d ∈ t.needs, d ∈ r.1)) := by
  have hexhaust : ∀ (c f : List String),
      c.Nodup → f.Nodup → (∀ x ∈ c, x ∉ f) →
      (∀ x ∈ c, ∃ t ∈ tasks, t.name = x) → (∀ x ∈ f, ∃ t ∈ tasks, t.name = x) →
      tasks.length ≤ c.length + f.length →
      ∀ t ∈ tasks, t.name ∈ c ∨ t.name ∈ f := by
    intro c f hc hf hdisj hcn hfn hlen t ht
    have hcfnd : (c ++ f).Nodup := by
      rw [List.nodup_append]
      exact ⟨hc, hf, hdisj⟩
    have hcfsub : (c ++ f) ⊆ tasks.map Task.name := by
      intro x hx
      rcases List.mem_append.mp hx with h1 | h1
      · obtain ⟨u, hu, hun⟩ := hcn x h1
        exact List.mem_map.mpr ⟨u, hu, hun⟩
      · obtain ⟨u, hu, hun⟩ := hfn x h1
        exact List.mem_map.mpr ⟨u, hu, hun⟩
    have hlen2 : (tasks.map Task.name).length ≤ (c ++ f).length := by
      rw [List.length_map, List.length_append]
      exact hlen
    have := all_names_mem (tasks.map Task.name) (c ++ f) hnodup hcfnd hcfsub hlen2
      t.name (List.mem_map.mpr ⟨t, ht, rfl⟩)
    exact List.mem_append.mp this
  intro fuel
  induction fuel with
  | zero =>
    intro attempt c f r hr hc hf hdisj hcn hfn hclos hlen
    rw [simpleRunLoop] at hr
    subst hr
    exact ⟨hexhaust c f hc hf hdisj hcn hfn (by omega), hdisj, fun x hx =>
      hclos x hx⟩
  | succ fuel ih =>
    intro attempt c f r hr hc hf hdisj hcn hfn hclos hlen
    rw [simpleRunLoop] at hr
    by_cases hcount : c.length + f.length < tasks.length
    · rw [if_pos hcount, if_neg (by simp)] at hr
      simp only at hr
      by_cases hprog : (simpleRound outcome tasks ((c, f), false)).2 = true
      · rw [if_pos hprog] at hr
        obtain ⟨s1, s2, s3, s4, s5, s6, s7⟩ :=
          simpleRound_sets outcome tasks c f false hc hf hdisj
        have hmono := simpleRound_mono outcome tasks c f false
        rw [simpleRound] at hr hprog
        have hcn2 : ∀ x ∈ (tasks.foldl (simpleRoundF outcome) ((c, f), false)).1.1,
            ∃ t ∈ tasks, t.name = x := by
          intro x hx
          rcases s4 x hx with h1 | h1
          · exact hcn x h1
          · obtain ⟨t, ht, htn⟩ := h1
            exact ⟨t, ht, htn⟩
        have hfn2 : ∀ x ∈ (tasks.foldl (simpleRoundF outcome) ((c, f), false)).1.2,
            ∃ t ∈ tasks, t.name = x := by
          intro x hx
          rcases s5 x hx with h1 | h1
          · exact hfn x h1
          · obtain ⟨t, ht, htn⟩ := h1
            exact ⟨t, ht, htn⟩
        have hclos2 : ∀ x ∈ (tasks.foldl (simpleRoundF outcome) ((c, f), false)).1.1,
            ∃ t ∈ tasks, t.name = x ∧ ∀ d ∈ t.needs,
              d ∈ (tasks.foldl (simpleRoundF outcome) ((c, f), false)).1.1 := by
          intro x hx
          rcases simpleRound_closure outcome tasks c f false x hx with h1 | h1
          · obtain ⟨t, ht, htn, htc⟩ := hclos x h1
            exact ⟨t, ht, htn, fun d hd => hmono.1 (htc d hd)⟩
          · exact h1
        have hlen2 := s7 rfl hprog
        have hr2 : r = simpleRunLoop outcome tasks (fun _ => false) (attempt + 1) fuel
            ((tasks.foldl (simpleRoundF outcome) ((c, f), false)).1.1,
             (tasks.foldl (simpleRoundF outcome) ((c, f), false)).1.2) := by
          rw [hr]
        exact ih (attempt + 1) _ _ r hr2 s1 s2 s3 hcn2 hfn2 hclos2 (by omega)
      · rw [if_neg hprog] at hr
        have hunch := simpleRound_no_progress outcome tasks c f
          (by rw [← simpleRound]; simpa using hprog)
        rw [simpleRound] at hr
        rw [hunch] at hr
        rw [markBlocked] at hr
        subst hr
        refine ⟨?_, ?_, ?_⟩
        · intro t ht
          by_cases htc : t.name ∈ c
          · exact Or.inl htc
          · by_cases htf : t.name ∈ f
            · exact Or.inr (List.mem_append.mpr (Or.inl htf))
            · refine Or.inr (List.mem_append.mpr (Or.inr ?_))
              apply List.mem_map.mpr
              refine ⟨t, ?_, rfl⟩
              apply List.mem_filter.mpr
              constructor
              · apply List.mem_filter.mpr
                refine ⟨ht, ?_⟩
                simp only [Bool.and_eq_true, Bool.not_eq_true']
                constructor
                · rw [Bool.eq_false_iff]
                  intro hcc
                  exact htc ((contains_eq_true_iff _ _).mp hcc)
                · rw [Bool.eq_false_iff]
                  intro hcc
                  exact htf ((contains_eq_true_iff _ _).mp hcc)
              · rw [List.any_eq_true]
                by_contra hall
                push_neg at hall
                have hready : ∀ d ∈ t.needs, d ∈ c := by
                  intro d hd
                  have hthis := hall d hd
                  have h2 : c.contains d = true := by
                    by_contra hb
                    rw [Bool.not_eq_true] at hb
                    rw [hb] at hthis
                    exact hthis rfl
                  exact (contains_eq_true_iff _ _).mp h2
                have hinj : ∀ u ∈ tasks, u.name = t.name → u = t :=
                  fun u hu hun => eq_of_name_eq hnodup hu ht hun
                have := simpleRound_ready_executes outcome t tasks c f false hinj ht
                  htc htf hready
                rw [← simpleRound] at this
                exact absurd this (by simpa using hprog)
        · intro x hx hmem
          rcases List.mem_append.mp hmem with h1 | h1
          · exact hdisj x hx h1
          · obtain ⟨t, htf, htn⟩ := List.mem_map.mp h1
            have := (List.mem_filter.mp (List.mem_filter.mp htf).1).2
            simp only [Bool.and_eq_true, Bool.not_eq_true'] at this
            rw [htn] at this
            have hxc : c.contains x = false := this.1
            rw [(contains_eq_true_iff _ _).mpr hx] at hxc
            cases hxc
        · exact fun x hx => hclos x hx
    · rw [if_neg hcount] at hr
      subst hr
      exact ⟨hexhaust c f hc hf hdisj hcn hfn (by omega), hdisj, fun x hx =>
        hclos x hx⟩

/-- The three coverage facts of the SimpleTaskRunner loop instantiated at
SimpleTaskRunner.run itself (empty initial sets, full fuel budget, no stop flag):
every task name lands in completed or failed, the two sets are disjoint, and every
completed name belongs to a task all of whose dependencies are completed. -/
theorem simple_run_marks_all (outcome : String → Bool) (tasks : List Task)
    (hnodup : (tasks.map Task.name).Nodup) :
    (∀ t ∈ tasks, t.name ∈ (simple_run outcome tasks (fun _ => false)).1 ∨
      t.name ∈ (simple_run outcome tasks (fun _ => false)).2) ∧
    (∀ x ∈ (simple_run outcome tasks (fun _ => false)).1,
      x ∉ (simple_run outcome tasks (fun _ => false)).2) ∧
    (∀ x ∈ (simple_run outcome tasks (fun _ => false)).1,
      ∃ t ∈ tasks, t.name = x ∧ ∀ d ∈ t.needs,
        d ∈ (simple_run outcome tasks (fun _ => false)).1) :=
  simpleRunLoop_marks_all outcome tasks hnodup (3 * tasks.length) 0 [] []
    (simple_run outcome tasks (fun _ => false)) rfl List.nodup_nil List.nodup_nil
    (by simp) (by simp) (by simp) (by simp) (by omega)

theorem simple_completed_closed (outcome : String → Bool) (tasks : List Task)
    (hnodup : (tasks.map Task.name).Nodup) (a b : String)
    (hab : Relation.ReflTransGen (Step tasks) a b)
    (ha : a ∈ (simple_run outcome tasks (fun _ => false)).1) :
    b ∈ (simple_run outcome tasks (fun _ => false)).1 := by
  induction hab with
  | refl => exact ha
  | @tail m n _h1 h2 ih =>
    obtain ⟨t, ht, htn, hcl⟩ :=
      (simple_run_marks_all outcome tasks hnodup).2.2 m ih
    rw [Step, ← htn, needsOf_of_mem tasks hnodup t ht] at h2
    exact hcl n h2

theorem simple_failed_dependents (outcome : String → Bool) (tasks : List Task)
    (hnodup : (tasks.map Task.name).Nodup) (t : Task) (ht : t ∈ tasks) (f : String)
    (hdep : Relation.TransGen (Step tasks) t.name f)
    (hf : f ∈ (simple_run outcome tasks (fun _ => false)).2) :
    t.name ∈ (simple_run outcome tasks (fun _ => false)).2 := by
  obtain ⟨hcov, hdisj, _⟩ := simple_run_marks_all outcome tasks hnodup
  rcases hcov t ht with h1 | h1
  · exact absurd hf (hdisj f
      (simple_completed_closed outcome tasks hnodup t.name f hdep.to_reflTransGen h1))
  · exact h1

/-- Pipeline for the C1 counterexample: b depends on a, and a will fail. -/
def c1Tasks : List Task :=
  [⟨"a", "", "shell", []⟩, ⟨"b", "", "shell", ["a"]⟩]

/-- Schedule for the C1 counterexample: no stop flag, a's future finishes in the very
iteration it was admitted, the database stays healthy. -/
def c1Sched : Nat → IterInput :=
  fun i => if i = 0 then ⟨false, ["a"], true⟩ else ⟨false, [], true⟩

/-- Outcome for the C1 counterexample: every task fails. -/
def c1Outcome : String → Bool := fun _ => false

/-- C1 (counterexample): a concrete TaskRunner run in which task b depends on task a,
a ends the run failed with status Error, the scheduler loop exits drained, and yet b
is left with status Pending: it is never marked Error or Cancelled, refuting the
claim that dependents of a failed task are explicitly marked. -/
theorem C1_dependents_left_pending :
    (("a" : String) ∈ needsOf c1Tasks "b") ∧
    (runTrace c1Tasks 2 c1Outcome c1Sched true 2).2 = some LoopExit.drained ∧
    (runTrace c1Tasks 2 c1Outcome c1Sched true 2).1.status "a" = TaskStatus.ERROR ∧
    ("a" : String) ∈ (runTrace c1Tasks 2 c1Outcome c1Sched true 2).1.failed ∧
    (runTrace c1Tasks 2 c1Outcome c1Sched true 2).1.status "b" =
      TaskStatus.PENDING := by
  refine ⟨by decide, by decide, by decide, by decide, by decide⟩

/-- C1 (amended): a task that transitively depends on a failed task never reaches
Done, but the two runners handle it differently.  In TaskRunner._execute_pipeline a
dependent of a task in the failed set is never admitted and is left with status
Pending when the loop exits: it is not marked Error or Cancelled (runner.py lines
347-353 and 396-398 contain no marking of blocked tasks).  In SimpleTaskRunner.run
the blocked-task sweep after a no-progress round (simple_runner.py lines 296-307)
does mark it: the dependent ends the run in the failed set. -/
theorem C1_failed_dependents (tasks : List Task) (concurrency : Nat)
    (outcome : String → Bool) (sched : Nat → IterInput) (useDb : Bool)
    (hnodup : (tasks.map Task.name).Nodup) (t : Task) (ht : t ∈ tasks) (f : String)
    (hdep : Relation.TransGen (Step tasks) t.name f) :
    (∀ k, f ∈ (runTrace tasks concurrency outcome sched useDb k).1.failed →
      (runTrace tasks concurrency outcome sched useDb k).1.status t.name =
        TaskStatus.PENDING) ∧
    (f ∈ (simple_run outcome tasks (fun _ => false)).2 →
      t.name ∈ (simple_run outcome tasks (fun _ => false)).2) := by
  constructor
  · intro k hf
    exact failed_dependents_pending tasks concurrency outcome sched useDb hnodup k t
      ht f hdep hf
  · intro hf
    exact simple_failed_dependents outcome tasks hnodup t ht f hdep hf

/-- C1 (witness): the amended theorem applied at the concrete two-task pipeline in
which a fails: the scheduler leaves b Pending, the simple runner marks b failed. -/
theorem C1_failed_dependents_witness :
    (runTrace c1Tasks 2 c1Outcome c1Sched true 2).1.status "b" =
      TaskStatus.PENDING ∧
    ("b" : String) ∈ (simple_run c1Outcome c1Tasks (fun _ => false)).2 := by
  have h := C1_failed_dependents c1Tasks 2 c1Outcome c1Sched true (by decide)
    ⟨"b", "", "shell", ["a"]⟩ (by decide) "a"
    (Relation.TransGen.single (show ("a" : String) ∈ needsOf c1Tasks "b" by decide))
  exact ⟨h.1 2 (by decide), h.2 (by decide)⟩

/-- Supervision actions a runner can take against a timed-out task's process. -/
inductive SupAction where
  | termGroup
  | sleepGrace
  | killGroup
  | killProc
deriving DecidableEq, Repr

/-- Model of TaskRunner._kill_process_tree on POSIX (runner.py lines 590-607): SIGTERM
to the whole process group, a sleep of HARD_KILL_GRACE, then SIGKILL to the group;
alive1 says the group still exists when getpgid/SIGTERM run, alive2 when SIGKILL
runs.  The result lists the signals delivered to a live group plus the grace sleep,
and the flag records that the call returns normally: ProcessLookupError and
PermissionError are swallowed at both levels (lines 603-607), so a process that has
already exited is never treated as an error. -/
def kill_process_tree (alive1 alive2 : Bool) : List SupAction × Bool :=
  if alive1 then
    (SupAction.termGroup :: SupAction.sleepGrace ::
      (if alive2 then [SupAction.killGroup] else []), true)
  else ([], true)

/-- Model of the TimeoutExpired branch of TaskRunner._execute_shell_task (runner.py
lines 537-546): run _kill_process_tree, mark the task Error (end_task with
TaskStatus.ERROR on the database path, failed_tasks otherwise), and return False.
Fields: actions taken, task marked failed, value returned. -/
def runner_timeout_handling (alive1 alive2 : Bool) : List SupAction × Bool × Bool :=
  ((kill_process_tree alive1 alive2).1, true, false)

/-- Model of the TimeoutExpired branch of SimpleTaskRunner.execute_shell_task
(simple_runner.py lines 181-188): process.kill() on the direct child only, exit_code
-1, so the task joins failed_tasks and the call returns False. -/
def simple_timeout_handling : List SupAction × Bool × Bool :=
  ([SupAction.killProc], true, false)

/-- C8 (amended): on timeout TaskRunner signals the whole process group: SIGTERM
first, then the grace sleep, then SIGKILL to survivors, skipping signals once the
group is gone, never raising for an already-exited process, always marking the task
failed and returning False; SimpleTaskRunner instead kills only the direct child
process with no group signal, no grace period and no escalation, though it too marks
the task failed and returns False. -/
theorem C8_timeout_process_group_handling :
    ((runner_timeout_handling true true).1 =
      [SupAction.termGroup, SupAction.sleepGrace, SupAction.killGroup]) ∧
    ((runner_timeout_handling true false).1 =
      [SupAction.termGroup, SupAction.sleepGrace]) ∧
    (∀ a2 : Bool, (runner_timeout_handling false a2).1 = []) ∧
    (∀ a1 a2 : Bool, (kill_process_tree a1 a2).2 = true ∧
      (runner_timeout_handling a1 a2).2.1 = true ∧
      (runner_timeout_handling a1 a2).2.2 = false) ∧
    (simple_timeout_handling = ([SupAction.killProc], true, false)) := by
  decide

/-- C8 (counterexample): the SimpleTaskRunner timeout path contains none of the
group-termination actions the claim promises for every shell task: no group SIGTERM,
no grace period, no group SIGKILL; only the direct child is killed, so descendant
processes in the group are never signalled. -/
theorem C8_simple_runner_no_group_kill :
    SupAction.termGroup ∉ simple_timeout_handling.1 ∧
    SupAction.sleepGrace ∉ simple_timeout_handling.1 ∧
    SupAction.killGroup ∉ simple_timeout_handling.1 ∧
    simple_timeout_handling.1 = [SupAction.killProc] := by
  decide
